import Mathlib

/-!
Verification of the learn-linalg dense linear-algebra toolkit.

The repository implements p-norms with compensated summation, LU and QR
decompositions, and a family of eigenvalue algorithms (power iteration,
inverse iteration, Rayleigh-quotient iteration, deflation, Hessenberg
reduction, the shifted QR algorithm).  Real floating-point arrays are
modelled by exact real (`ℝ`) or rational (`ℚ`) values; numpy arrays of
statically unknown shape are modelled by lists, square matrices by
`Matrix (Fin n) (Fin n) ℝ`.  Division by zero follows the Lean convention
`x / 0 = 0`, whereas the sources let `inf`/`nan` propagate; the one place a
division by zero can actually occur (a zero Householder slice in `hessenberg`,
where numpy computes `0.0/0.0 = nan` and poisons the updated rows) is
therefore excluded by an explicit non-degeneracy hypothesis
(`Multi.hessNondegenerate`) on every statement about `hessenberg`, so that no
verified statement depends on the divergent convention.
-/

open Classical

noncomputable section

namespace LearnLinalg

/-- numpy default relative tolerance of `np.isclose` / `np.allclose`. -/
def npRtol : ℝ := 1e-5

/-- numpy default absolute tolerance of `np.isclose` / `np.allclose`. -/
def npAtol : ℝ := 1e-8

/-- numpy `np.isclose(a, b)` with default tolerances:
`|a - b| <= atol + rtol * |b|`. -/
def npIsClose (a b : ℝ) : Prop := |a - b| ≤ npAtol + npRtol * |b|

namespace PySum

/-- Modelled from the spec: the repository file `sum.py` (class `KahanSum`,
imported by `src/qrdecomp/utils.py`) is not under `src/`.  Spec section 4.1:
compensated (Kahan) summation tracks a running compensation term so the final
sum matches the mathematically exact sum; state is the running sum together
with the compensation term. -/
structure KahanSum where
  sum : ℝ
  comp : ℝ

/-- Modelled from the spec: one compensated addition.  `y = x - comp`,
`t = sum + y`, new compensation `(t - sum) - y`. -/
def KahanSum.add (k : KahanSum) (x : ℝ) : KahanSum :=
  let y := x - k.comp
  let t := k.sum + y
  { sum := t, comp := (t - k.sum) - y }

/-- Modelled from the spec: the currently accumulated sum. -/
def KahanSum.cur_sum (k : KahanSum) : ℝ := k.sum

/-- Summing a list of terms through a fresh `KahanSum` accumulator. -/
def runKahan (l : List ℝ) : ℝ := (l.foldl KahanSum.add ⟨0, 0⟩).cur_sum

lemma foldl_kahan_add (l : List ℝ) (s : ℝ) :
    l.foldl KahanSum.add ⟨s, 0⟩ = ⟨s + l.sum, 0⟩ := by
  induction l generalizing s with
  | nil => simp
  | cons x xs ih =>
      have hstep : KahanSum.add ⟨s, 0⟩ x = ⟨s + x, 0⟩ := by
        simp [KahanSum.add]
      rw [List.foldl_cons, hstep, ih]
      simp [List.sum_cons]
      ring

/-- In exact arithmetic the compensation term vanishes identically, so Kahan
summation agrees with the plain list sum. -/
lemma runKahan_eq_sum (l : List ℝ) : runKahan l = l.sum := by
  simp [runKahan, foldl_kahan_add, KahanSum.cur_sum]

end PySum

namespace QRUtils

/-- numpy n-dimensional real array, restricted to the ranks these utilities
receive: 1-D vectors and 2-D matrices (a matrix is its list of rows). -/
inductive PyArr where
  | A1 (xs : List ℝ)
  | A2 (xss : List (List ℝ))

/-- `np.ndarray.ndim`. -/
def PyArr.ndim : PyArr → ℕ
  | .A1 _ => 1
  | .A2 _ => 2

/-- `np.ndarray.flatten`: row-major flattening, always yielding a 1-D array. -/
def PyArr.flatten : PyArr → PyArr
  | .A1 xs => .A1 xs
  | .A2 xss => .A1 xss.flatten

/-- The entries of an array in row-major order. -/
def PyArr.entries : PyArr → List ℝ
  | .A1 xs => xs
  | .A2 xss => xss.flatten

/-- `src/qrdecomp/utils.py`, `norm(x, p)`: sets `v = np.array(x).flatten()`,
asserts `v.ndim == 1` and `p >= 1`, Kahan-sums `np.power(np.abs(v[i]), p)`
over all entries and returns `np.power(sum, 1./p)`.  `np.power` with real
exponent is `Real.rpow`; a failed assert is an `Except.error` carrying the
message of the assert. -/
def norm (x : PyArr) (p : ℝ) : Except String ℝ :=
  let v := x.flatten
  if v.ndim ≠ 1 then .error "x must be 1D"
  else if ¬ 1 ≤ p then .error "p must be >= 1"
  else .ok ((PySum.runKahan (v.entries.map fun t => |t| ^ p)) ^ (1 / p))

/-- Python indexing into axis 0 of an array with `n` rows: a nonnegative index
`k < n` selects row `k`, a negative index `k >= -n` selects row `n + k`, and
anything else raises `IndexError`. -/
def pyIdx (k : ℤ) (n : ℕ) : Option ℕ :=
  if 0 ≤ k ∧ k < (n : ℤ) then some k.toNat
  else if -(n : ℤ) ≤ k ∧ k < 0 then some ((n : ℤ) + k).toNat
  else none

/-- `src/qrdecomp/utils.py`, `basis_vec(k, n)`: asserts `k < n`, then builds
`b = np.zeros([n, 1])` and executes the Python assignment `b[k] = 1` under
Python index semantics (`pyIdx`).  Entries are exact rationals. -/
def basis_vec (k : ℤ) (n : ℕ) : Except String (List (List ℚ)) :=
  if ¬ k < (n : ℤ) then .error "[!] k cannot exceed n."
  else
    match pyIdx k n with
    | some i => .ok ((List.replicate n ([(0 : ℚ)])).set i [1])
    | none => .error "IndexError: index out of bounds for axis 0"

end QRUtils

/-- Claim C2 counterexample: contrary to the claim, a two-dimensional matrix
input does not make `norm` raise: the input is flattened before the 1-D
assert, so the assert always passes and a value is returned. -/
theorem norm_matrix_input_returns_value :
    (QRUtils.norm (QRUtils.PyArr.A2 [[3], [4]]) 2).isOk = true := by
  have h1 : (QRUtils.PyArr.A2 [[3], [4]]).flatten.ndim = 1 := rfl
  simp only [QRUtils.norm, h1]
  rw [if_neg (by norm_num), if_neg (by norm_num)]
  rfl

/-- Claim C2 (amended): `norm(x, p)` fails exactly when `p < 1`; the input is
flattened to 1-D before the dimension assert, so that assert never fires (in
particular 2-D input returns a value); for `p ≥ 1` the result is
`(sum of |x_i| ^ p) ^ (1/p)` where the Kahan-compensated sum equals the exact
plain sum. -/
theorem norm_spec (x : QRUtils.PyArr) (p : ℝ) :
    (p < 1 → QRUtils.norm x p = .error "p must be >= 1")
    ∧ (1 ≤ p → QRUtils.norm x p =
        .ok (((x.entries.map fun t => |t| ^ p).sum) ^ (1 / p))) := by
  have hdim : x.flatten.ndim = 1 := by cases x <;> rfl
  have hent : x.flatten.entries = x.entries := by cases x <;> rfl
  constructor
  · intro hp
    simp only [QRUtils.norm, hdim]
    rw [if_neg (by norm_num), if_pos (not_le.mpr hp)]
  · intro hp
    simp only [QRUtils.norm, hdim, hent]
    rw [if_neg (by norm_num), if_neg (by push_neg; exact hp), PySum.runKahan_eq_sum]

/-- Witness for the amended claim C2: at `p = 1/2 < 1` the error branch fires;
at `p = 1` the value branch returns the exact sum form. -/
theorem norm_spec_witness :
    ((1 : ℝ) / 2 < 1 ∧
      QRUtils.norm (QRUtils.PyArr.A1 [3]) (1 / 2) = .error "p must be >= 1")
    ∧ ((1 : ℝ) ≤ 1 ∧
      QRUtils.norm (QRUtils.PyArr.A1 [3]) 1 =
        .ok (((([(3 : ℝ)].map fun t => |t| ^ (1 : ℝ)).sum) ^ (1 / (1 : ℝ))))) :=
  ⟨⟨by norm_num, (norm_spec _ _).1 (by norm_num)⟩,
   ⟨le_refl 1, (norm_spec (QRUtils.PyArr.A1 [3]) 1).2 (le_refl 1)⟩⟩

/-- Claim C10: for `n ≥ 1` and `-n ≤ k < 0`, `basis_vec(k, n)` does not fail:
the assert only checks `k < n`, which a negative `k` passes, and the returned
`n`-by-1 vector carries its 1 in row `n + k` (Python negative indexing). -/
theorem basis_vec_negative_index (k : ℤ) (n : ℕ) (hn : 1 ≤ n)
    (hk0 : -(n : ℤ) ≤ k) (hk1 : k < 0) :
    QRUtils.basis_vec k n =
      .ok ((List.replicate n ([(0 : ℚ)])).set ((n : ℤ) + k).toNat [1])
    ∧ ((List.replicate n ([(0 : ℚ)])).set ((n : ℤ) + k).toNat [1])[((n : ℤ) + k).toNat]?
        = some [1] := by
  have hklt : k < (n : ℤ) := lt_of_lt_of_le hk1 (by exact_mod_cast Nat.zero_le n)
  have hidx : QRUtils.pyIdx k n = some ((n : ℤ) + k).toNat := by
    simp only [QRUtils.pyIdx]
    rw [if_neg, if_pos ⟨hk0, hk1⟩]
    push_neg
    intro h0
    exact absurd (lt_of_le_of_lt h0 hk1) (lt_irrefl 0)
  constructor
  · simp only [QRUtils.basis_vec, hidx]
    rw [if_neg]
    push_neg
    exact hklt
  · have hlt : ((n : ℤ) + k).toNat < n := by
      omega
    exact List.getElem?_set_eq_of_lt [1] (by simpa using hlt)

/-- Witness for claim C10 at `n = 3`, `k = -2`: no failure and the 1 sits in
row 1. -/
theorem basis_vec_negative_index_witness :
    (1 ≤ 3 ∧ -((3 : ℕ) : ℤ) ≤ (-2 : ℤ) ∧ (-2 : ℤ) < 0)
    ∧ (QRUtils.basis_vec (-2) 3 =
        .ok ((List.replicate 3 ([(0 : ℚ)])).set (((3 : ℕ) : ℤ) + (-2)).toNat [1])
      ∧ ((List.replicate 3 ([(0 : ℚ)])).set (((3 : ℕ) : ℤ) + (-2)).toNat [1])[(((3 : ℕ) : ℤ) + (-2)).toNat]?
          = some [1]) :=
  ⟨⟨by norm_num, by norm_num, by norm_num⟩,
   basis_vec_negative_index (-2) 3 (by norm_num) (by norm_num) (by norm_num)⟩

open Matrix

namespace LinalgUtils

/-- Modelled from the spec: the module `linalg/utils.py` (imported by the
eigen code as `utils`) is not under `src/`.  Spec section 4.1 describes
`is_symmetric` as an element-wise closeness check against the transpose with
fixed absolute/relative tolerances; this is `np.allclose(A, A.T)` with numpy
defaults, as in the sibling utility file `src/qrdecomp/utils.py`. -/
def isSymCloseP {n : ℕ} (A : Matrix (Fin n) (Fin n) ℝ) : Prop :=
  ∀ i j, npIsClose (A i j) (Aᵀ i j)

/-- The boolean returned by `utils.is_symmetric`. -/
def is_symmetric {n : ℕ} (A : Matrix (Fin n) (Fin n) ℝ) : Bool :=
  decide (isSymCloseP A)

lemma is_symmetric_eq_true {n : ℕ} {A : Matrix (Fin n) (Fin n) ℝ} :
    is_symmetric A = true ↔ isSymCloseP A := by
  simp [is_symmetric]

lemma isSymCloseP_of_transpose_eq {n : ℕ} {A : Matrix (Fin n) (Fin n) ℝ}
    (h : Aᵀ = A) : isSymCloseP A := by
  intro i j
  rw [h]
  unfold npIsClose npAtol npRtol
  rw [sub_self, abs_zero]
  positivity

/-- Modelled from the spec: `utils.l2_norm(x)` is `sqrt(xᵀ x)` (spec 4.1). -/
def l2_norm {n : ℕ} (x : Fin n → ℝ) : ℝ := Real.sqrt (x ⬝ᵥ x)

/-- Modelled from the spec: `utils.normalize(v)` divides a vector by its L2
norm (spec 4.4/4.5: iterates renormalize by the L2 norm). -/
def normalize {n : ℕ} (v : Fin n → ℝ) : Fin n → ℝ := fun i => v i / l2_norm v

/-- Modelled from the spec: `utils.sign(x)`, the sign factor used to choose
the Householder reflection so that it matches the sign of the pivot element
being eliminated (spec 4.3); at zero we take `+1` (for a zero pivot either
sign avoids cancellation, and the spec fixes no choice). -/
def sign (x : ℝ) : ℝ := if 0 ≤ x then 1 else -1

/-- Modelled from the spec: `utils.projection(v, u)` is the orthogonal
projection of `v` onto `u`, the quantity subtracted during deflation
(spec 4.5: subtract each eigenvector's projection). -/
def projection {n : ℕ} (v u : Fin n → ℝ) : Fin n → ℝ :=
  fun i => ((v ⬝ᵥ u) / (u ⬝ᵥ u)) * u i

/-- Modelled from the spec: `utils.diag(A)` extracts the diagonal of a square
matrix (spec 4.1: diagonal extraction). -/
def diag {n : ℕ} (A : Matrix (Fin n) (Fin n) ℝ) : List ℝ :=
  (List.finRange n).map fun i => A i i

lemma dotProduct_self_nonneg {n : ℕ} (v : Fin n → ℝ) : 0 ≤ v ⬝ᵥ v :=
  Finset.sum_nonneg fun i _ => mul_self_nonneg (v i)

lemma normalize_eq_smul {n : ℕ} (v : Fin n → ℝ) :
    normalize v = (l2_norm v)⁻¹ • v := by
  funext i
  simp [normalize, div_eq_inv_mul]

lemma l2_norm_pos {n : ℕ} {v : Fin n → ℝ} (hv : v ≠ 0) : 0 < l2_norm v := by
  rw [l2_norm, Real.sqrt_pos]
  rcases lt_or_eq_of_le (dotProduct_self_nonneg v) with h | h
  · exact h
  · exact absurd (dotProduct_self_eq_zero.mp h.symm) hv

lemma l2_norm_normalize {n : ℕ} {v : Fin n → ℝ} (hv : v ≠ 0) :
    l2_norm (normalize v) = 1 := by
  have hc : 0 < l2_norm v := l2_norm_pos hv
  have hd : (l2_norm v) ^ 2 = v ⬝ᵥ v := Real.sq_sqrt (dotProduct_self_nonneg v)
  rw [normalize_eq_smul, l2_norm, smul_dotProduct, dotProduct_smul,
    smul_eq_mul, smul_eq_mul]
  have : (l2_norm v)⁻¹ * ((l2_norm v)⁻¹ * (v ⬝ᵥ v)) = 1 := by
    rw [← hd]
    field_simp
    ring
  rw [this, Real.sqrt_one]

lemma normalize_ne_zero {n : ℕ} {v : Fin n → ℝ} (hv : v ≠ 0) :
    normalize v ≠ 0 := by
  intro h
  have := l2_norm_normalize hv
  rw [h] at this
  have h0 : l2_norm (0 : Fin n → ℝ) = 0 := by
    simp [l2_norm, Real.sqrt_zero]
  rw [h0] at this
  norm_num at this

end LinalgUtils

namespace Single

/-- `src/linalg/eigen/single.py`, `rayleigh_quotient(A, x)`: computes
`num = x.T @ A @ x` and `denum = x.T @ x`, returning `num` undivided when
`np.isclose(x.T @ x, 1.)` and `num / denum` otherwise. -/
def rayleigh_quotient {n : ℕ} (A : Matrix (Fin n) (Fin n) ℝ)
    (x : Fin n → ℝ) : ℝ :=
  let num := x ⬝ᵥ (A *ᵥ x)
  let denum := x ⬝ᵥ x
  if npIsClose (x ⬝ᵥ x) 1 then num else num / denum

/-- One step of the power-iteration loop body: `v = A @ v; v /= l2_norm(v)`. -/
def powStep {n : ℕ} (A : Matrix (Fin n) (Fin n) ℝ) (v : Fin n → ℝ) :
    Fin n → ℝ :=
  LinalgUtils.normalize (A *ᵥ v)

/-- `src/linalg/eigen/single.py`, `power_iteration(A, max_iter)`: asserts
symmetry, then runs the loop body for exactly `max_iter` iterations (the loop
has no break) and returns the Rayleigh quotient of the final vector together
with that vector.  The random start `np.random.randn(N)` is modelled by the
explicit parameter `v0`. -/
def power_iteration {n : ℕ} (A : Matrix (Fin n) (Fin n) ℝ) (v0 : Fin n → ℝ)
    (max_iter : ℕ) : Except String (ℝ × (Fin n → ℝ)) :=
  if LinalgUtils.is_symmetric A then
    let v := (List.range max_iter).foldl (fun v _ => powStep A v) v0
    .ok (rayleigh_quotient A v, v)
  else .error "[!] Matrix must be symmetric."

/-- A linear-algebra operation observable in the instrumented inverse
iteration: an LU factorization of the matrix, or one triangular solve against
a stored factorization. -/
inductive LAOp where
  | factor
  | solve

/-- `src/linalg/eigen/single.py`, `inverse_iteration(A, max_iter)`: asserts
symmetry, computes `PLU = LU(A.copy(), pivoting=..).decompose()` once before
the loop, then for `max_iter` iterations runs `v = solve(PLU, v)` followed by
`v /= l2_norm(v)`, and returns the Rayleigh quotient of the final vector.
Modelled from the spec: the LU module (`linalg/ludecomp.py`) and the generic
solver (`linalg/solver.py`) are not under `src/`; they are passed in as the
abstract factorization function `dec` and the substitution function `slv`
(spec 4.2: `decompose()` and substitution-based `solve`).  The computation is
instrumented with the list of factor/solve operations it performs, in order;
the random start is the explicit parameter `v0`. -/
def inverse_iteration {n : ℕ} {Fact : Type} (dec : Matrix (Fin n) (Fin n) ℝ → Fact)
    (slv : Fact → (Fin n → ℝ) → (Fin n → ℝ)) (A : Matrix (Fin n) (Fin n) ℝ)
    (v0 : Fin n → ℝ) (max_iter : ℕ) :
    Except String ((ℝ × (Fin n → ℝ)) × List LAOp) :=
  if LinalgUtils.is_symmetric A then
    let PLU := (dec A, [LAOp.factor])
    let r := (List.range max_iter).foldl
      (fun (p : (Fin n → ℝ) × List LAOp) _ =>
        (LinalgUtils.normalize (slv PLU.1 p.1), p.2 ++ [LAOp.solve]))
      (v0, PLU.2)
    .ok ((rayleigh_quotient A r.1, r.1), r.2)
  else .error "[!] Matrix must be symmetric."

end Single

lemma foldl_range_const {α : Type _} (f : α → α) (m : ℕ) (a : α) :
    (List.range m).foldl (fun x _ => f x) a = f^[m] a := by
  induction m with
  | zero => simp
  | succ k ih =>
      rw [List.range_succ, List.foldl_append, ih, List.foldl_cons,
        List.foldl_nil, Function.iterate_succ_apply']

lemma foldl_range_pair {α γ : Type _} (f : α → α) (c : γ) (m : ℕ) (a : α)
    (l : List γ) :
    (List.range m).foldl (fun p _ => (f p.1, p.2 ++ [c])) (a, l)
      = (f^[m] a, l ++ List.replicate m c) := by
  induction m with
  | zero => simp
  | succ k ih =>
      rw [List.range_succ, List.foldl_append, ih, List.foldl_cons,
        List.foldl_nil, Function.iterate_succ_apply', List.replicate_succ',
        ← List.append_assoc]

lemma mulVec_powStep_ne_zero {n : ℕ} {A : Matrix (Fin n) (Fin n) ℝ}
    (hA : Aᵀ = A) {v : Fin n → ℝ} (hv : A *ᵥ v ≠ 0) :
    A *ᵥ Single.powStep A v ≠ 0 := by
  set w := A *ᵥ v with hw
  have hAw : A *ᵥ w ≠ 0 := by
    intro h
    have hww : w ⬝ᵥ w = 0 := by
      calc w ⬝ᵥ w = w ⬝ᵥ (A *ᵥ v) := by rw [hw]
        _ = (w ᵥ* A) ⬝ᵥ v := dotProduct_mulVec w A v
        _ = (Aᵀ *ᵥ w) ⬝ᵥ v := by rw [mulVec_transpose]
        _ = (A *ᵥ w) ⬝ᵥ v := by rw [hA]
        _ = 0 := by rw [h, zero_dotProduct]
    exact hv (dotProduct_self_eq_zero.mp hww)
  rw [Single.powStep, LinalgUtils.normalize_eq_smul, mulVec_smul]
  intro h
  rcases smul_eq_zero.mp h with h1 | h1
  · exact inv_ne_zero (ne_of_gt (LinalgUtils.l2_norm_pos hv)) h1
  · exact hAw h1

lemma mulVec_powStep_iterate_ne_zero {n : ℕ} {A : Matrix (Fin n) (Fin n) ℝ}
    (hA : Aᵀ = A) {v0 : Fin n → ℝ} (h0 : A *ᵥ v0 ≠ 0) (m : ℕ) :
    A *ᵥ (Single.powStep A)^[m] v0 ≠ 0 := by
  induction m with
  | zero => simpa using h0
  | succ k ih =>
      rw [Function.iterate_succ_apply']
      exact mulVec_powStep_ne_zero hA ih

/-- Claim C4: `rayleigh_quotient(A, x)` returns `xᵀAx / xᵀx` whenever `xᵀx` is
not numerically close to 1; when it is close the division is skipped and the
bare numerator `xᵀAx` is returned; and under the exact hypothesis `xᵀx = 1`
the two forms agree exactly. -/
theorem rayleigh_quotient_spec {n : ℕ} (A : Matrix (Fin n) (Fin n) ℝ)
    (x : Fin n → ℝ) :
    (¬ npIsClose (x ⬝ᵥ x) 1 →
      Single.rayleigh_quotient A x = (x ⬝ᵥ (A *ᵥ x)) / (x ⬝ᵥ x))
    ∧ (npIsClose (x ⬝ᵥ x) 1 →
      Single.rayleigh_quotient A x = x ⬝ᵥ (A *ᵥ x))
    ∧ (x ⬝ᵥ x = 1 →
      Single.rayleigh_quotient A x = x ⬝ᵥ (A *ᵥ x)
      ∧ x ⬝ᵥ (A *ᵥ x) = (x ⬝ᵥ (A *ᵥ x)) / (x ⬝ᵥ x)) := by
  refine ⟨fun h => ?_, fun h => ?_, fun h => ⟨?_, ?_⟩⟩
  · simp only [Single.rayleigh_quotient, if_neg h]
  · simp only [Single.rayleigh_quotient, if_pos h]
  · have hclose : npIsClose (x ⬝ᵥ x) 1 := by
      rw [h]
      unfold npIsClose npAtol npRtol
      rw [sub_self, abs_zero]
      positivity
    simp only [Single.rayleigh_quotient, if_pos hclose]
  · rw [h, div_one]

/-- Witness for claim C4 at `A = [[2]]`, `x = [1]`: here `xᵀx = 1`, the
division is skipped, and both forms agree. -/
theorem rayleigh_quotient_spec_witness :
    ((![(1 : ℝ)]) ⬝ᵥ (![(1 : ℝ)]) = 1)
    ∧ (Single.rayleigh_quotient !![(2 : ℝ)] ![(1 : ℝ)]
        = (![(1 : ℝ)]) ⬝ᵥ (!![(2 : ℝ)] *ᵥ ![(1 : ℝ)])
      ∧ (![(1 : ℝ)]) ⬝ᵥ (!![(2 : ℝ)] *ᵥ ![(1 : ℝ)])
        = ((![(1 : ℝ)]) ⬝ᵥ (!![(2 : ℝ)] *ᵥ ![(1 : ℝ)])) / ((![(1 : ℝ)]) ⬝ᵥ (![(1 : ℝ)]))) := by
  have h1 : (![(1 : ℝ)]) ⬝ᵥ (![(1 : ℝ)]) = 1 := by
    simp [dotProduct, Fin.sum_univ_one]
  exact ⟨h1, (rayleigh_quotient_spec !![(2 : ℝ)] ![(1 : ℝ)]).2.2 h1⟩

/-- Claim C3: for symmetric `A` (with a start vector of nonzero image, in
exact arithmetic), `power_iteration(A, max_iter)` runs the loop body
`v ← normalize(A v)` exactly `max_iter` times with no early exit, and returns
the Rayleigh quotient of the final vector paired with that vector, which has
L2 norm 1. -/
theorem power_iteration_spec {n : ℕ} (A : Matrix (Fin n) (Fin n) ℝ)
    (v0 : Fin n → ℝ) (max_iter : ℕ) (hA : Aᵀ = A) (h0 : A *ᵥ v0 ≠ 0)
    (hm : 1 ≤ max_iter) :
    Single.power_iteration A v0 max_iter =
      .ok (Single.rayleigh_quotient A ((Single.powStep A)^[max_iter] v0),
           (Single.powStep A)^[max_iter] v0)
    ∧ LinalgUtils.l2_norm ((Single.powStep A)^[max_iter] v0) = 1 := by
  have hsym : LinalgUtils.is_symmetric A = true :=
    LinalgUtils.is_symmetric_eq_true.mpr (LinalgUtils.isSymCloseP_of_transpose_eq hA)
  constructor
  · simp only [Single.power_iteration, hsym, if_true, foldl_range_const]
  · obtain ⟨k, rfl⟩ : ∃ k, max_iter = k + 1 :=
      ⟨max_iter - 1, (Nat.succ_pred_eq_of_pos hm).symm⟩
    rw [Function.iterate_succ_apply', Single.powStep]
    exact LinalgUtils.l2_norm_normalize (mulVec_powStep_iterate_ne_zero hA h0 k)

/-- Witness for claim C3 at `A = [[4]]`, `v0 = [1]`, `max_iter = 1`. -/
theorem power_iteration_spec_witness :
    ((!![(4 : ℝ)])ᵀ = !![(4 : ℝ)] ∧ !![(4 : ℝ)] *ᵥ ![(1 : ℝ)] ≠ 0 ∧ 1 ≤ 1)
    ∧ (Single.power_iteration !![(4 : ℝ)] ![(1 : ℝ)] 1 =
        .ok (Single.rayleigh_quotient !![(4 : ℝ)] ((Single.powStep !![(4 : ℝ)])^[1] ![(1 : ℝ)]),
             (Single.powStep !![(4 : ℝ)])^[1] ![(1 : ℝ)])
      ∧ LinalgUtils.l2_norm ((Single.powStep !![(4 : ℝ)])^[1] ![(1 : ℝ)]) = 1) := by
  have hA : (!![(4 : ℝ)])ᵀ = !![(4 : ℝ)] := by
    ext i j
    fin_cases i
    fin_cases j
    rfl
  have h0 : !![(4 : ℝ)] *ᵥ ![(1 : ℝ)] ≠ 0 := by
    intro h
    have := congrFun h 0
    simp [Matrix.mulVec, dotProduct, Fin.sum_univ_one] at this
  exact ⟨⟨hA, h0, le_refl 1⟩, power_iteration_spec !![(4 : ℝ)] ![(1 : ℝ)] 1 hA h0 (le_refl 1)⟩

/-- Claim C5: `inverse_iteration(A, max_iter)` performs the LU factorization
of `A` exactly once, before the loop (the operation trace is one `factor`
followed by `max_iter` `solve`s and nothing else), and each iteration solves
against that stored factorization and renormalizes: the returned vector is
the `max_iter`-fold iterate of `v ← normalize(solve(dec A, v))`. -/
theorem inverse_iteration_spec {n : ℕ} {Fact : Type}
    (dec : Matrix (Fin n) (Fin n) ℝ → Fact)
    (slv : Fact → (Fin n → ℝ) → (Fin n → ℝ)) (A : Matrix (Fin n) (Fin n) ℝ)
    (v0 : Fin n → ℝ) (max_iter : ℕ) (hA : LinalgUtils.isSymCloseP A) :
    Single.inverse_iteration dec slv A v0 max_iter =
      .ok ((Single.rayleigh_quotient A
              ((fun v => LinalgUtils.normalize (slv (dec A) v))^[max_iter] v0),
            (fun v => LinalgUtils.normalize (slv (dec A) v))^[max_iter] v0),
           Single.LAOp.factor :: List.replicate max_iter Single.LAOp.solve) := by
  have hsym : LinalgUtils.is_symmetric A = true :=
    LinalgUtils.is_symmetric_eq_true.mpr hA
  simp only [Single.inverse_iteration, hsym, if_true,
    foldl_range_pair (fun v => LinalgUtils.normalize (slv (dec A) v))
      Single.LAOp.solve max_iter v0 [Single.LAOp.factor],
    List.singleton_append]

/-- Witness for claim C5 at a concrete symmetric 1-by-1 matrix with trivial
factorization and solver and `max_iter = 1`. -/
theorem inverse_iteration_spec_witness :
    LinalgUtils.isSymCloseP !![(2 : ℝ)]
    ∧ Single.inverse_iteration (fun _ => ()) (fun _ v => v) !![(2 : ℝ)] ![(1 : ℝ)] 1 =
        .ok ((Single.rayleigh_quotient !![(2 : ℝ)]
                ((fun v => LinalgUtils.normalize ((fun (_ : Unit) (v : Fin 1 → ℝ) => v) () v))^[1] ![(1 : ℝ)]),
              (fun v => LinalgUtils.normalize ((fun (_ : Unit) (v : Fin 1 → ℝ) => v) () v))^[1] ![(1 : ℝ)]),
             Single.LAOp.factor :: List.replicate 1 Single.LAOp.solve) := by
  have hA : LinalgUtils.isSymCloseP !![(2 : ℝ)] := by
    apply LinalgUtils.isSymCloseP_of_transpose_eq
    ext i j
    fin_cases i
    fin_cases j
    rfl
  exact ⟨hA, inverse_iteration_spec (fun _ => ()) (fun _ v => v) !![(2 : ℝ)] ![(1 : ℝ)] 1 hA⟩

namespace Multi

/-- The column slice `a = A[i+1:, i]` of the Hessenberg step, padded with
zeros to a full-length vector (entries in rows `0..i` are zero); slice dot
products below therefore coincide with full dot products. -/
def house_a {n : ℕ} (i : Fin n) (A : Matrix (Fin n) (Fin n) ℝ) : Fin n → ℝ :=
  fun r => if (i : ℕ) + 1 ≤ (r : ℕ) then A r i else 0

/-- The first entry `a[0]` of that slice, i.e. `A[i+1, i]`. -/
def house_a0 {n : ℕ} (i : Fin n) (A : Matrix (Fin n) (Fin n) ℝ) : ℝ :=
  if h : (i : ℕ) + 1 < n then A ⟨(i : ℕ) + 1, h⟩ i else 0

/-- The Householder vector `v = a + sign(a[0]) * l2_norm(a) * e` of
`src/linalg/eigen/multi.py` (`e = basis_vec(0, len(a), flat=True)` is the
indicator of the first slice position, i.e. of row `i+1`), padded like `a`. -/
def house_v {n : ℕ} (i : Fin n) (A : Matrix (Fin n) (Fin n) ℝ) : Fin n → ℝ :=
  fun r => house_a i A r +
    LinalgUtils.sign (house_a0 i A) * LinalgUtils.l2_norm (house_a i A) *
      (if (r : ℕ) = (i : ℕ) + 1 then 1 else 0)

/-- The left transform of one Hessenberg step:
`for j in range(i, M): A[i+1:, j] -= (2 * v.T @ A[i+1:, j]) / (v.T @ v) * v`.
When `v = 0` (a zero Householder slice) the source computes `0.0/0.0 = nan`
and writes `nan` into rows `i+1..M-1`; here Lean's `x / 0 = 0` makes the
update a no-op instead, so every theorem below that reasons through this
definition excludes `v ⬝ᵥ v = 0` by a non-degeneracy hypothesis. -/
def leftT {n : ℕ} (i : Fin n) (v : Fin n → ℝ) (A : Matrix (Fin n) (Fin n) ℝ) :
    Matrix (Fin n) (Fin n) ℝ :=
  Matrix.of fun r c =>
    if (i : ℕ) + 1 ≤ (r : ℕ) ∧ (i : ℕ) ≤ (c : ℕ) then
      A r c - (2 * (v ⬝ᵥ fun r2 => A r2 c)) / (v ⬝ᵥ v) * v r
    else A r c

/-- The right transform of one Hessenberg step:
`for j in range(i if is_symm else 0, M):
   A[j, i+1:M] -= 2 * ((A[j, i+1:M].T @ v) / (v.T @ v)) * v.T`.
As for `leftT`, `v = 0` makes the source write `0.0/0.0 = nan` into the
updated row slices while Lean's `x / 0 = 0` makes the update a no-op; the
degenerate case is excluded by hypothesis wherever this definition is
reasoned about. -/
def rightT {n : ℕ} (start : ℕ) (i : Fin n) (v : Fin n → ℝ)
    (A : Matrix (Fin n) (Fin n) ℝ) : Matrix (Fin n) (Fin n) ℝ :=
  Matrix.of fun r c =>
    if start ≤ (r : ℕ) ∧ (i : ℕ) + 1 ≤ (c : ℕ) then
      A r c - 2 * (((fun c2 => A r c2) ⬝ᵥ v) / (v ⬝ᵥ v)) * v c
    else A r c

/-- One iteration of the Hessenberg loop: compute the Householder vector from
the current matrix, then apply the left and right transforms. -/
def hessStep {n : ℕ} (sym : Bool) (i : Fin n) (A : Matrix (Fin n) (Fin n) ℝ) :
    Matrix (Fin n) (Fin n) ℝ :=
  let v := house_v i A
  rightT (if sym then (i : ℕ) else 0) i v (leftT i v A)

/-- The Hessenberg loop body at natural index `k` (the guard is never taken
at call sites, where `k < n - 2`). -/
def hessStepN {n : ℕ} (sym : Bool) (k : ℕ) (A : Matrix (Fin n) (Fin n) ℝ) :
    Matrix (Fin n) (Fin n) ℝ :=
  if h : k < n then hessStep sym ⟨k, h⟩ A else A

/-- The first `m` iterations of the Hessenberg loop. -/
def hessIter {n : ℕ} (sym : Bool) (A : Matrix (Fin n) (Fin n) ℝ) :
    ℕ → Matrix (Fin n) (Fin n) ℝ
  | 0 => A
  | m + 1 => hessStepN sym m (hessIter sym A m)

/-- `src/linalg/eigen/multi.py`, `hessenberg(A)` (the `calc_q=False` path, the
only one the claims exercise): asserts squareness (square by type here),
computes `is_symm = utils.is_symmetric(A)` once, copies `A`, and for
`i in range(M-2)` applies the Householder left transform on columns `i..M-1`
and the right transform on rows `i..M-1` when `is_symm` (all rows otherwise),
columns `i+1..M-1`. -/
def hessenberg {n : ℕ} (A : Matrix (Fin n) (Fin n) ℝ) :
    Matrix (Fin n) (Fin n) ℝ :=
  hessIter (LinalgUtils.is_symmetric A) A (n - 2)

/-- Non-degeneracy of a `hessenberg` run: at every executed iteration
`k < M - 2` the Householder slice `a = A[k+1:, k]` of the current matrix is
nonzero.  When the slice is zero the source's `v` is zero, `v.T @ v = 0.0`,
and the updates at `multi.py` lines 90 and 93 compute `0.0/0.0 = nan`,
poisoning all remaining rows; every statement about `hessenberg` below
assumes this non-degenerate path. -/
def hessNondegenerate {n : ℕ} (sym : Bool) (A : Matrix (Fin n) (Fin n) ℝ) :
    Prop :=
  ∀ k : ℕ, ∀ hk : k < n - 2,
    house_a ⟨k, Nat.lt_of_lt_of_le hk (Nat.sub_le n 2)⟩ (hessIter sym A k) ≠ 0

end Multi

namespace Single

/-- `src/linalg/eigen/single.py`, `rayleigh_quotient_iteration(A, mu, max_iter)`:
asserts symmetry, then for `max_iter` iterations runs
`v = solve(A - mu * np.eye(N), v); v /= l2_norm(v); mu = rayleigh_quotient(A, v)`
and returns the final `(mu, v)`.  Modelled from the spec: the generic solver
`linalg/solver.py` is not under `src/` and enters as the abstract function
`slv`; the random start `np.random.randn(N)` is the parameter `v0`. -/
def rayleigh_quotient_iteration {n : ℕ}
    (slv : Matrix (Fin n) (Fin n) ℝ → (Fin n → ℝ) → (Fin n → ℝ))
    (A : Matrix (Fin n) (Fin n) ℝ) (mu0 : ℝ) (v0 : Fin n → ℝ) (max_iter : ℕ) :
    Except String (ℝ × (Fin n → ℝ)) :=
  if LinalgUtils.is_symmetric A then
    let r := (List.range max_iter).foldl
      (fun (p : ℝ × (Fin n → ℝ)) _ =>
        let v := LinalgUtils.normalize (slv (A - p.1 • 1) p.2)
        (rayleigh_quotient A v, v)) (mu0, v0)
    .ok r
  else .error "[!] Matrix must be symmetric."

end Single

namespace Multi

/-- The elementwise convergence tolerance hard-coded in the iterative loops of
`src/linalg/eigen/multi.py`. -/
def convTol : ℝ := 1e-8

/-- `np.all(np.abs(X - Y) < tol)`. -/
def allLt {n : ℕ} (X Y : Matrix (Fin n) (Fin n) ℝ) (t : ℝ) : Prop :=
  ∀ i j, |X i j - Y i j| < t

/-- One iteration of the shifted-QR loop of `qr_algorithm`: the shift `mu` is
the bottom-right diagonal entry, `Q, R = QR(A - mu*np.eye(M)).decompose()`,
and the new iterate is `R @ Q + mu*np.eye(M)`.  Modelled from the spec: the
QR module (`linalg/qrdecomp.py`) is not under `src/`; `decompose()` enters as
the abstract function `dec` whose contract (spec 4.3: `Q` orthogonal and
`Q @ R` reproducing the input) is hypothesised where needed. -/
def qrAlgoStep {m : ℕ}
    (dec : Matrix (Fin (m + 1)) (Fin (m + 1)) ℝ →
      Matrix (Fin (m + 1)) (Fin (m + 1)) ℝ × Matrix (Fin (m + 1)) (Fin (m + 1)) ℝ)
    (A : Matrix (Fin (m + 1)) (Fin (m + 1)) ℝ) :
    Matrix (Fin (m + 1)) (Fin (m + 1)) ℝ :=
  let mu := A (Fin.last m) (Fin.last m)
  let QR := dec (A - mu • 1)
  QR.2 * QR.1 + mu • 1

/-- The shifted-QR loop: run `qrAlgoStep` with the given fuel (1000 in
`qr_algorithm`), stopping as soon as successive iterates differ below `1e-8`
elementwise; on the stopping test the previous iterate is kept, as in the
source (`break` before `A = A_new`). -/
def qrLoop {m : ℕ}
    (dec : Matrix (Fin (m + 1)) (Fin (m + 1)) ℝ →
      Matrix (Fin (m + 1)) (Fin (m + 1)) ℝ × Matrix (Fin (m + 1)) (Fin (m + 1)) ℝ) :
    ℕ → Matrix (Fin (m + 1)) (Fin (m + 1)) ℝ → Matrix (Fin (m + 1)) (Fin (m + 1)) ℝ
  | 0, A => A
  | fuel + 1, A =>
      let Anew := qrAlgoStep dec A
      if allLt Anew A convTol then A else qrLoop dec fuel Anew

/-- Stable insertion of index `i` into an index list sorted ascending by
`key`. -/
def argInsert (key : ℕ → ℝ) (i : ℕ) : List ℕ → List ℕ
  | [] => [i]
  | j :: rest => if key i < key j then i :: j :: rest else j :: argInsert key i rest

/-- `np.argsort(keys)[::-1]`: indices sorted by ascending key, reversed. -/
def argsortRev (keys : List ℝ) : List ℕ :=
  ((List.range keys.length).foldl
    (fun acc i => argInsert (fun t => keys.getD t 0) i acc) []).reverse

/-- numpy fancy indexing along an axis: `arr[idx]`, raising `IndexError` when
some index is out of bounds. -/
def fancyIdx {α : Type _} (cols : List α) (idx : List ℕ) : Except String (List α) :=
  idx.mapM fun j =>
    match cols[j]? with
    | some c => Except.ok c
    | none => Except.error "IndexError: index out of bounds"

/-- `src/linalg/eigen/multi.py`, `qr_algorithm(A, hess=True, sort=True)`:
asserts symmetry, keeps `backup = np.array(A)`, optionally Hessenberg-reduces,
runs the shifted-QR loop for up to 1000 iterations, reads the diagonal as
eigenvalue estimates, recovers each eigenvector by one step of
Rayleigh-quotient iteration against `backup`, and optionally sorts both
outputs by decreasing eigenvalue magnitude with numpy fancy indexing.
Eigenvectors are the returned list of columns; `starts` supplies the random
start vector of each Rayleigh-quotient iteration call. -/
def qr_algorithm {m : ℕ}
    (dec : Matrix (Fin (m + 1)) (Fin (m + 1)) ℝ →
      Matrix (Fin (m + 1)) (Fin (m + 1)) ℝ × Matrix (Fin (m + 1)) (Fin (m + 1)) ℝ)
    (slv : Matrix (Fin (m + 1)) (Fin (m + 1)) ℝ → (Fin (m + 1) → ℝ) → (Fin (m + 1) → ℝ))
    (starts : ℕ → (Fin (m + 1) → ℝ)) (A : Matrix (Fin (m + 1)) (Fin (m + 1)) ℝ)
    (hess sort : Bool) :
    Except String (List ℝ × List (Fin (m + 1) → ℝ)) :=
  if LinalgUtils.is_symmetric A then do
    let backup := A
    let A1 := if hess then hessenberg A else A
    let Af := qrLoop dec 1000 A1
    let mus := LinalgUtils.diag Af
    let pairs ← mus.enum.mapM fun p =>
      Single.rayleigh_quotient_iteration slv backup p.2 (starts p.1) 1
    let eigvals := pairs.map Prod.fst
    let eigvecs := pairs.map Prod.snd
    if sort then do
      let idx := argsortRev (eigvals.map fun e => |e|)
      let eigvecs2 ← fancyIdx eigvecs idx
      let eigvals2 ← fancyIdx eigvals idx
      return (eigvals2, eigvecs2)
    else
      return (eigvals, eigvecs)
  else .error "[!] Matrix must be symmetric."

/-- `src/linalg/eigen/multi.py`, `eig(A, sort=True)`: the facade, whose body
is exactly `qr_algorithm(A, hess=True, sort=sort)`. -/
def eig {m : ℕ}
    (dec : Matrix (Fin (m + 1)) (Fin (m + 1)) ℝ →
      Matrix (Fin (m + 1)) (Fin (m + 1)) ℝ × Matrix (Fin (m + 1)) (Fin (m + 1)) ℝ)
    (slv : Matrix (Fin (m + 1)) (Fin (m + 1)) ℝ → (Fin (m + 1) → ℝ) → (Fin (m + 1) → ℝ))
    (starts : ℕ → (Fin (m + 1) → ℝ)) (A : Matrix (Fin (m + 1)) (Fin (m + 1)) ℝ)
    (sort : Bool) :
    Except String (List ℝ × List (Fin (m + 1) → ℝ)) :=
  qr_algorithm dec slv starts A true sort

end Multi

lemma charpoly_conj_orth {k : ℕ} (Q A : Matrix (Fin k) (Fin k) ℝ)
    (hQ : Qᵀ * Q = 1) : (Qᵀ * A * Q).charpoly = A.charpoly := by
  have hmap : ∀ M : Matrix (Fin k) (Fin k) ℝ,
      (Polynomial.C : ℝ →+* Polynomial ℝ).mapMatrix M = M.map Polynomial.C :=
    fun M => rfl
  have hQQ : (Polynomial.C : ℝ →+* Polynomial ℝ).mapMatrix Qᵀ *
      (Polynomial.C : ℝ →+* Polynomial ℝ).mapMatrix Q = 1 := by
    rw [← RingHom.map_mul, hQ, RingHom.map_one]
  have hcomm :
      (Polynomial.C : ℝ →+* Polynomial ℝ).mapMatrix Qᵀ *
        Matrix.scalar (Fin k) (Polynomial.X : Polynomial ℝ) *
        (Polynomial.C : ℝ →+* Polynomial ℝ).mapMatrix Q
      = Matrix.scalar (Fin k) (Polynomial.X : Polynomial ℝ) := by
    have hc := Matrix.scalar_commute (Polynomial.X : Polynomial ℝ)
      (fun r => Commute.all _ r)
      ((Polynomial.C : ℝ →+* Polynomial ℝ).mapMatrix Qᵀ)
    rw [← hc.eq, Matrix.mul_assoc, hQQ, Matrix.mul_one]
  have hcm : Matrix.charmatrix (Qᵀ * A * Q)
      = (Polynomial.C : ℝ →+* Polynomial ℝ).mapMatrix Qᵀ *
        Matrix.charmatrix A * (Polynomial.C : ℝ →+* Polynomial ℝ).mapMatrix Q := by
    unfold Matrix.charmatrix
    rw [RingHom.map_mul, RingHom.map_mul, Matrix.mul_sub, Matrix.sub_mul, hcomm]
  have hdet : ((Polynomial.C : ℝ →+* Polynomial ℝ).mapMatrix Qᵀ).det *
      ((Polynomial.C : ℝ →+* Polynomial ℝ).mapMatrix Q).det = 1 := by
    rw [← Matrix.det_mul, hQQ, Matrix.det_one]
  rw [Matrix.charpoly, Matrix.charpoly, hcm, Matrix.det_mul, Matrix.det_mul]
  have hring :
      ((Polynomial.C : ℝ →+* Polynomial ℝ).mapMatrix Qᵀ).det *
        (Matrix.charmatrix A).det *
        ((Polynomial.C : ℝ →+* Polynomial ℝ).mapMatrix Q).det
      = (Matrix.charmatrix A).det *
        (((Polynomial.C : ℝ →+* Polynomial ℝ).mapMatrix Qᵀ).det *
          ((Polynomial.C : ℝ →+* Polynomial ℝ).mapMatrix Q).det) := by
    ring
  rw [hring, hdet, mul_one]

lemma qrAlgoStep_eq_conj {m : ℕ}
    (dec : Matrix (Fin (m + 1)) (Fin (m + 1)) ℝ →
      Matrix (Fin (m + 1)) (Fin (m + 1)) ℝ × Matrix (Fin (m + 1)) (Fin (m + 1)) ℝ)
    (hdec : ∀ B, (dec B).1ᵀ * (dec B).1 = 1 ∧ (dec B).1 * (dec B).2 = B)
    (A : Matrix (Fin (m + 1)) (Fin (m + 1)) ℝ) :
    Multi.qrAlgoStep dec A =
      (dec (A - A (Fin.last m) (Fin.last m) • 1)).1ᵀ * A *
        (dec (A - A (Fin.last m) (Fin.last m) • 1)).1 := by
  set mu := A (Fin.last m) (Fin.last m) with hmu
  obtain ⟨hQ, hQR⟩ := hdec (A - mu • 1)
  set Q := (dec (A - mu • 1)).1 with hQdef
  set R := (dec (A - mu • 1)).2 with hRdef
  have hR : R = Qᵀ * (A - mu • 1) := by
    have h1 : Qᵀ * (Q * R) = Qᵀ * (A - mu • 1) := by rw [hQR]
    rwa [← Matrix.mul_assoc, hQ, Matrix.one_mul] at h1
  show R * Q + mu • 1 = Qᵀ * A * Q
  rw [hR, Matrix.mul_sub, Matrix.mul_smul, Matrix.mul_one, Matrix.sub_mul,
    Matrix.smul_mul, hQ]
  abel

lemma qrAlgoStep_charpoly {m : ℕ}
    (dec : Matrix (Fin (m + 1)) (Fin (m + 1)) ℝ →
      Matrix (Fin (m + 1)) (Fin (m + 1)) ℝ × Matrix (Fin (m + 1)) (Fin (m + 1)) ℝ)
    (hdec : ∀ B, (dec B).1ᵀ * (dec B).1 = 1 ∧ (dec B).1 * (dec B).2 = B)
    (A : Matrix (Fin (m + 1)) (Fin (m + 1)) ℝ) :
    (Multi.qrAlgoStep dec A).charpoly = A.charpoly := by
  rw [qrAlgoStep_eq_conj dec hdec A]
  exact charpoly_conj_orth _ _ (hdec _).1

lemma qrLoop_charpoly {m : ℕ}
    (dec : Matrix (Fin (m + 1)) (Fin (m + 1)) ℝ →
      Matrix (Fin (m + 1)) (Fin (m + 1)) ℝ × Matrix (Fin (m + 1)) (Fin (m + 1)) ℝ)
    (hdec : ∀ B, (dec B).1ᵀ * (dec B).1 = 1 ∧ (dec B).1 * (dec B).2 = B)
    (fuel : ℕ) (A : Matrix (Fin (m + 1)) (Fin (m + 1)) ℝ) :
    (Multi.qrLoop dec fuel A).charpoly = A.charpoly := by
  induction fuel generalizing A with
  | zero => rfl
  | succ k ih =>
      show (let Anew := Multi.qrAlgoStep dec A;
        if Multi.allLt Anew A Multi.convTol then A
        else Multi.qrLoop dec k Anew).charpoly = A.charpoly
      by_cases h : Multi.allLt (Multi.qrAlgoStep dec A) A Multi.convTol
      · simp only [h, if_true]
      · simp only [h, if_false]
        rw [ih (Multi.qrAlgoStep dec A), qrAlgoStep_charpoly dec hdec A]

/-- Claim C7: under the QR contract (orthogonal `Q`, `Q @ R` reproducing the
input), each iteration of the `qr_algorithm` loop shifts by the bottom-right
diagonal entry and reassembles `R @ Q + mu*I`, which equals the orthogonal
similarity `Qᵀ A Q`; hence the characteristic polynomial — and so the
eigenvalue multiset — is invariant across the whole loop, for any fuel and in
particular for the 1000-iteration budget with its `1e-8` elementwise stopping
rule embodied in `qrLoop`. -/
theorem qr_algorithm_loop_invariant {m : ℕ}
    (dec : Matrix (Fin (m + 1)) (Fin (m + 1)) ℝ →
      Matrix (Fin (m + 1)) (Fin (m + 1)) ℝ × Matrix (Fin (m + 1)) (Fin (m + 1)) ℝ)
    (hdec : ∀ B, (dec B).1ᵀ * (dec B).1 = 1 ∧ (dec B).1 * (dec B).2 = B)
    (A : Matrix (Fin (m + 1)) (Fin (m + 1)) ℝ) (fuel : ℕ) :
    (Multi.qrAlgoStep dec A =
      (dec (A - A (Fin.last m) (Fin.last m) • 1)).1ᵀ * A *
        (dec (A - A (Fin.last m) (Fin.last m) • 1)).1)
    ∧ (Multi.qrAlgoStep dec A).charpoly = A.charpoly
    ∧ (Multi.qrLoop dec fuel A).charpoly = A.charpoly
    ∧ (Multi.qrLoop dec 1000 A).charpoly = A.charpoly :=
  ⟨qrAlgoStep_eq_conj dec hdec A, qrAlgoStep_charpoly dec hdec A,
   qrLoop_charpoly dec hdec fuel A, qrLoop_charpoly dec hdec 1000 A⟩

/-- Witness for claim C7 with the trivial decomposition `B = 1 * B` (which
satisfies the hypothesised QR contract) on a concrete 1-by-1 matrix. -/
theorem qr_algorithm_loop_invariant_witness :
    (∀ B : Matrix (Fin 1) (Fin 1) ℝ,
      ((fun B : Matrix (Fin 1) (Fin 1) ℝ => ((1 : Matrix (Fin 1) (Fin 1) ℝ), B)) B).1ᵀ *
        ((fun B : Matrix (Fin 1) (Fin 1) ℝ => ((1 : Matrix (Fin 1) (Fin 1) ℝ), B)) B).1 = 1
      ∧ ((fun B : Matrix (Fin 1) (Fin 1) ℝ => ((1 : Matrix (Fin 1) (Fin 1) ℝ), B)) B).1 *
        ((fun B : Matrix (Fin 1) (Fin 1) ℝ => ((1 : Matrix (Fin 1) (Fin 1) ℝ), B)) B).2 = B)
    ∧ ((Multi.qrLoop (fun B => ((1 : Matrix (Fin 1) (Fin 1) ℝ), B)) 1000 !![(5 : ℝ)]).charpoly
        = (!![(5 : ℝ)]).charpoly) := by
  have hdec : ∀ B : Matrix (Fin 1) (Fin 1) ℝ,
      ((fun B : Matrix (Fin 1) (Fin 1) ℝ => ((1 : Matrix (Fin 1) (Fin 1) ℝ), B)) B).1ᵀ *
        ((fun B : Matrix (Fin 1) (Fin 1) ℝ => ((1 : Matrix (Fin 1) (Fin 1) ℝ), B)) B).1 = 1
      ∧ ((fun B : Matrix (Fin 1) (Fin 1) ℝ => ((1 : Matrix (Fin 1) (Fin 1) ℝ), B)) B).1 *
        ((fun B : Matrix (Fin 1) (Fin 1) ℝ => ((1 : Matrix (Fin 1) (Fin 1) ℝ), B)) B).2 = B := by
    intro B
    constructor
    · rw [Matrix.transpose_one, Matrix.one_mul]
    · rw [Matrix.one_mul]
  exact ⟨hdec,
    (qr_algorithm_loop_invariant (fun B => ((1 : Matrix (Fin 1) (Fin 1) ℝ), B))
      hdec !![(5 : ℝ)] 0).2.2.2⟩

/-- Claim C8: the `eig` facade adds nothing: for every matrix `A` and every
`sort`, `eig(A, sort)` is definitionally `qr_algorithm(A, hess=True,
sort=sort)`, the shifted QR path with Hessenberg pre-reduction enabled. -/
theorem eig_eq_qr_algorithm {m : ℕ}
    (dec : Matrix (Fin (m + 1)) (Fin (m + 1)) ℝ →
      Matrix (Fin (m + 1)) (Fin (m + 1)) ℝ × Matrix (Fin (m + 1)) (Fin (m + 1)) ℝ)
    (slv : Matrix (Fin (m + 1)) (Fin (m + 1)) ℝ → (Fin (m + 1) → ℝ) → (Fin (m + 1) → ℝ))
    (starts : ℕ → (Fin (m + 1) → ℝ)) (A : Matrix (Fin (m + 1)) (Fin (m + 1)) ℝ)
    (sort : Bool) :
    Multi.eig dec slv starts A sort = Multi.qr_algorithm dec slv starts A true sort :=
  rfl

namespace Multi

/-- The inner loop of `projected_iteration` for slot `i`, with `vecs` the
already-stored eigenvector columns `eigvecs[:, 0..i-1]`: each pass projects
out the stored eigenvectors (`proj_sum` accumulated over them, then
`v -= proj_sum`), forms `v_new = normalize(A @ v)`, breaks — keeping the
projected `v` — when `np.all(np.abs(v_new - v) < 1e-8)`, and otherwise
continues from `v_new`; with fuel exhausted the last `v_new` is returned. -/
def projInner {N : ℕ} (A : Matrix (Fin N) (Fin N) ℝ) (vecs : List (Fin N → ℝ)) :
    ℕ → (Fin N → ℝ) → (Fin N → ℝ)
  | 0, v => v
  | fuel + 1, v =>
      let proj_sum := vecs.foldl
        (fun acc u => acc + LinalgUtils.projection v u) (0 : Fin N → ℝ)
      let vp := v - proj_sum
      let v_new := LinalgUtils.normalize (A *ᵥ vp)
      if ∀ idx, |v_new idx - vp idx| < convTol then vp
      else projInner A vecs fuel v_new

/-- `src/linalg/eigen/multi.py`, `projected_iteration(A, k, max_iter, sort)`:
asserts symmetry and `0 < k <= N`, allocates `eigvecs = np.zeros((N, k))`
(modelled as the growing list of its assigned columns) and — as in the
source — `eigvals = np.zeros(A.shape[0])`, i.e. length `N`, not `k`; each
slot `i` runs the deflated inner iteration from the random start `starts i`
and stores `eigvals[i] = rayleigh_quotient(A, v)` and `eigvecs[:, i] = v`.
With `sort=True` it takes `idx = np.abs(eigvals).argsort()[::-1]` (length
`N`) and fancy-indexes first `eigvecs` along axis 1 and then `eigvals` with
it, as in the source. -/
def projected_iteration {N : ℕ} (A : Matrix (Fin N) (Fin N) ℝ) (k : ℕ)
    (starts : ℕ → (Fin N → ℝ)) (max_iter : ℕ) (sort : Bool) :
    Except String (List ℝ × List (Fin N → ℝ)) :=
  if LinalgUtils.is_symmetric A then
    if ¬ (0 < k ∧ k ≤ N) then .error "[!] k must be between 1 and N."
    else
      let r := (List.range k).foldl
        (fun (p : List ℝ × List (Fin N → ℝ)) i =>
          let v := projInner A p.2 max_iter (starts i)
          let e := Single.rayleigh_quotient A v
          (p.1.set i e, p.2 ++ [v]))
        (List.replicate N 0, [])
      if sort then
        let idx := argsortRev (r.1.map fun e => |e|)
        match fancyIdx r.2 idx with
        | .error msg => .error msg
        | .ok vecs2 =>
            match fancyIdx r.1 idx with
            | .error msg => .error msg
            | .ok vals2 => .ok (vals2, vecs2)
      else .ok (r.1, r.2)
  else .error "[!] Matrix must be symmetric."

end Multi

/-- Claim C1 evaluation at the failing input `A = [[1,0],[0,0]]`, `k = 1`,
`max_iter = 1`, start vector `[1,0]`: with `sort=True` the call raises
`IndexError` (the sort permutation has length `N = 2` but `eigvecs` has only
`k = 1` columns), and with `sort=False` it returns an eigenvalue array of
length 2, not `k = 1`. -/
theorem projected_iteration_shape_bug :
    Multi.projected_iteration !![(1 : ℝ), 0; 0, 0] 1 (fun _ => ![1, 0]) 1 true
      = .error "IndexError: index out of bounds"
    ∧ ∃ p, Multi.projected_iteration !![(1 : ℝ), 0; 0, 0] 1 (fun _ => ![1, 0]) 1 false
        = .ok p ∧ p.1.length = 2 ∧ p.2.length = 1 := by
  have hsymP : LinalgUtils.isSymCloseP !![(1 : ℝ), 0; 0, 0] := by
    apply LinalgUtils.isSymCloseP_of_transpose_eq
    ext i j
    fin_cases i <;> fin_cases j <;> rfl
  have hsym : LinalgUtils.is_symmetric !![(1 : ℝ), 0; 0, 0] = true :=
    LinalgUtils.is_symmetric_eq_true.mpr hsymP
  have hmv : !![(1 : ℝ), 0; 0, 0] *ᵥ ![1, 0] = ![1, 0] := by
    funext i
    fin_cases i <;>
      simp [Matrix.mulVec, dotProduct, Fin.sum_univ_two]
  have hl2 : LinalgUtils.l2_norm ![(1 : ℝ), 0] = 1 := by
    rw [LinalgUtils.l2_norm]
    have : (![(1 : ℝ), 0]) ⬝ᵥ (![(1 : ℝ), 0]) = 1 := by
      simp [dotProduct, Fin.sum_univ_two]
    rw [this, Real.sqrt_one]
  have hnorm : LinalgUtils.normalize ![(1 : ℝ), 0] = ![1, 0] := by
    funext i
    rw [LinalgUtils.normalize, hl2]
    fin_cases i <;> norm_num
  have hproj : Multi.projInner !![(1 : ℝ), 0; 0, 0] [] 1 ![1, 0] = ![1, 0] := by
    simp only [Multi.projInner, List.foldl_nil, sub_zero, hmv, hnorm]
    rw [if_pos]
    intro idx
    rw [sub_self, abs_zero, Multi.convTol]
    norm_num
  have hrq : Single.rayleigh_quotient !![(1 : ℝ), 0; 0, 0] ![1, 0] = 1 := by
    have hdot : (![(1 : ℝ), 0]) ⬝ᵥ (![(1 : ℝ), 0]) = 1 := by
      simp [dotProduct, Fin.sum_univ_two]
    have hclose : npIsClose ((![(1 : ℝ), 0]) ⬝ᵥ (![(1 : ℝ), 0])) 1 := by
      rw [hdot]
      unfold npIsClose npAtol npRtol
      rw [sub_self, abs_zero]
      positivity
    simp only [Single.rayleigh_quotient, if_pos hclose]
    rw [hmv, hdot]
  have hfold : (List.range 1).foldl
      (fun (p : List ℝ × List (Fin 2 → ℝ)) i =>
        let v := Multi.projInner !![(1 : ℝ), 0; 0, 0] p.2 1 ((fun _ => ![(1 : ℝ), 0]) i)
        let e := Single.rayleigh_quotient !![(1 : ℝ), 0; 0, 0] v
        (p.1.set i e, p.2 ++ [v]))
      (List.replicate 2 0, [])
      = ([(1 : ℝ), 0], [![(1 : ℝ), 0]]) := by
    have h01 : List.range 1 = [0] := rfl
    rw [h01, List.foldl_cons, List.foldl_nil]
    simp only [hproj, hrq]
    rfl
  have hkeys : ([(1 : ℝ), 0].map fun e => |e|) = [1, 0] := by
    simp
  have hargsort : Multi.argsortRev [(1 : ℝ), 0] = [0, 1] := by
    rw [Multi.argsortRev]
    have h2 : [(1 : ℝ), 0].length = 2 := rfl
    rw [h2]
    have hrange : List.range 2 = [0, 1] := rfl
    rw [hrange, List.foldl_cons, List.foldl_cons, List.foldl_nil]
    have h1 : Multi.argInsert (fun t => [(1 : ℝ), 0].getD t 0) 0 [] = [0] := rfl
    rw [h1]
    show (Multi.argInsert (fun t => [(1 : ℝ), 0].getD t 0) 1 [0]).reverse = [0, 1]
    rw [Multi.argInsert]
    rw [if_pos (by norm_num)]
    rfl
  constructor
  · simp only [Multi.projected_iteration, hsym, if_true]
    rw [if_neg (by norm_num)]
    simp only [hfold, hkeys, hargsort]
    have hvecs : Multi.fancyIdx [![(1 : ℝ), 0]] [0, 1]
        = .error "IndexError: index out of bounds" := rfl
    rw [hvecs]
  · refine ⟨([(1 : ℝ), 0], [![(1 : ℝ), 0]]), ?_, rfl, rfl⟩
    simp only [Multi.projected_iteration, hsym, if_true]
    rw [if_neg (by norm_num)]
    simp only [hfold]
    rfl

/-- The full-size Householder reflection determined by a (padded) vector:
`H = 1 - (2 / vᵀv) · v vᵀ`.  For `v = 0` the Lean convention `2 / 0 = 0`
makes `H = 1`, matching the no-op the degenerate loop iterations perform on
the entries the claims speak about. -/
def houseH {n : ℕ} (v : Fin n → ℝ) : Matrix (Fin n) (Fin n) ℝ :=
  1 - (2 / (v ⬝ᵥ v)) • Matrix.vecMulVec v v

lemma houseH_apply {n : ℕ} (v : Fin n → ℝ) (r c : Fin n) :
    houseH v r c = (if r = c then (1 : ℝ) else 0) - 2 / (v ⬝ᵥ v) * (v r * v c) := by
  simp [houseH, Matrix.sub_apply, Matrix.smul_apply, Matrix.vecMulVec_apply,
    Matrix.one_apply, smul_eq_mul]

lemma houseH_mul_apply {n : ℕ} (v : Fin n → ℝ) (A : Matrix (Fin n) (Fin n) ℝ)
    (r c : Fin n) :
    (houseH v * A) r c = A r c - 2 / (v ⬝ᵥ v) * (v r * (v ⬝ᵥ fun k => A k c)) := by
  rw [Matrix.mul_apply]
  have expand : ∀ k, houseH v r k * A k c
      = (if r = k then A k c else 0) - 2 / (v ⬝ᵥ v) * (v r * (v k * A k c)) := by
    intro k
    rw [houseH_apply]
    by_cases h : r = k
    · rw [if_pos h, if_pos h]; ring
    · rw [if_neg h, if_neg h]; ring
  calc (Finset.univ.sum fun k => houseH v r k * A k c)
      = (Finset.univ.sum fun k => (if r = k then A k c else 0))
        - (Finset.univ.sum fun k => 2 / (v ⬝ᵥ v) * (v r * (v k * A k c))) := by
        rw [← Finset.sum_sub_distrib]
        exact Finset.sum_congr rfl fun k _ => expand k
    _ = A r c - 2 / (v ⬝ᵥ v) * (v r * (v ⬝ᵥ fun k => A k c)) := by
        congr 1
        · simp
        · simp only [dotProduct]
          rw [Finset.mul_sum, Finset.mul_sum]

lemma mul_houseH_apply {n : ℕ} (v : Fin n → ℝ) (A : Matrix (Fin n) (Fin n) ℝ)
    (r c : Fin n) :
    (A * houseH v) r c = A r c - 2 / (v ⬝ᵥ v) * (((fun k => A r k) ⬝ᵥ v) * v c) := by
  rw [Matrix.mul_apply]
  have expand : ∀ k, A r k * houseH v k c
      = (if k = c then A r k else 0) - 2 / (v ⬝ᵥ v) * ((A r k * v k) * v c) := by
    intro k
    rw [houseH_apply]
    by_cases h : k = c
    · rw [if_pos h, if_pos h]; ring
    · rw [if_neg h, if_neg h]; ring
  calc (Finset.univ.sum fun k => A r k * houseH v k c)
      = (Finset.univ.sum fun k => (if k = c then A r k else 0))
        - (Finset.univ.sum fun k => 2 / (v ⬝ᵥ v) * ((A r k * v k) * v c)) := by
        rw [← Finset.sum_sub_distrib]
        exact Finset.sum_congr rfl fun k _ => expand k
    _ = A r c - 2 / (v ⬝ᵥ v) * (((fun k => A r k) ⬝ᵥ v) * v c) := by
        congr 1
        · simp
        · simp only [dotProduct]
          rw [Finset.sum_mul, Finset.mul_sum]

lemma houseH_transpose {n : ℕ} (v : Fin n → ℝ) : (houseH v)ᵀ = houseH v := by
  unfold houseH
  rw [Matrix.transpose_sub, Matrix.transpose_one, Matrix.transpose_smul]
  congr 1
  ext r c
  simp [Matrix.vecMulVec_apply, Matrix.transpose_apply, mul_comm]

lemma houseH_mul_houseH {n : ℕ} (v : Fin n → ℝ) : houseH v * houseH v = 1 := by
  by_cases hd : v ⬝ᵥ v = 0
  · have hv0 : v = 0 := dotProduct_self_eq_zero.mp hd
    have h1 : houseH v = 1 := by
      unfold houseH
      have : Matrix.vecMulVec v v = 0 := by
        ext r c
        rw [hv0]
        simp [Matrix.vecMulVec_apply]
      rw [this, smul_zero, sub_zero]
    rw [h1, Matrix.one_mul]
  · ext r c
    rw [houseH_mul_apply]
    have hcol : (v ⬝ᵥ fun k => houseH v k c) = - v c := by
      have expand : ∀ k, v k * houseH v k c
          = (if k = c then v k else 0) - 2 / (v ⬝ᵥ v) * ((v k * v k) * v c) := by
        intro k
        rw [houseH_apply]
        by_cases h : k = c
        · rw [if_pos h, if_pos h]; ring
        · rw [if_neg h, if_neg h]; ring
      calc v ⬝ᵥ (fun k => houseH v k c)
          = (Finset.univ.sum fun k => (if k = c then v k else 0))
            - (Finset.univ.sum fun k => 2 / (v ⬝ᵥ v) * ((v k * v k) * v c)) := by
            rw [dotProduct, ← Finset.sum_sub_distrib]
            exact Finset.sum_congr rfl fun k _ => expand k
        _ = v c - 2 / (v ⬝ᵥ v) * ((v ⬝ᵥ v) * v c) := by
            congr 1
            · simp
            · simp only [dotProduct]
              rw [Finset.sum_mul, Finset.mul_sum]
        _ = v c - 2 * v c := by
            rw [div_mul_eq_mul_div, mul_comm (v ⬝ᵥ v) (v c), ← mul_assoc,
              mul_div_assoc, div_self hd, mul_one]
        _ = - v c := by ring
    rw [hcol, houseH_apply, Matrix.one_apply]
    ring

lemma house_a_apply_le {n : ℕ} (i : Fin n) (A : Matrix (Fin n) (Fin n) ℝ)
    (r : Fin n) (h : (i : ℕ) + 1 ≤ (r : ℕ)) : Multi.house_a i A r = A r i := by
  simp only [Multi.house_a]
  rw [if_pos h]

lemma house_a_apply_lt {n : ℕ} (i : Fin n) (A : Matrix (Fin n) (Fin n) ℝ)
    (r : Fin n) (h : (r : ℕ) < (i : ℕ) + 1) : Multi.house_a i A r = 0 := by
  simp only [Multi.house_a]
  rw [if_neg (by omega)]

lemma house_v_padding {n : ℕ} (i : Fin n) (A : Matrix (Fin n) (Fin n) ℝ)
    (r : Fin n) (hr : (r : ℕ) < (i : ℕ) + 1) : Multi.house_v i A r = 0 := by
  simp only [Multi.house_v]
  rw [house_a_apply_lt i A r hr, if_neg (by omega)]
  ring

lemma leftT_eq_mul {n : ℕ} (i : Fin n) (v : Fin n → ℝ)
    (A : Matrix (Fin n) (Fin n) ℝ)
    (hv : ∀ r : Fin n, (r : ℕ) < (i : ℕ) + 1 → v r = 0)
    (hz : ∀ c : Fin n, (c : ℕ) < (i : ℕ) → ∀ r : Fin n, (i : ℕ) + 1 ≤ (r : ℕ) → A r c = 0) :
    Multi.leftT i v A = houseH v * A := by
  ext r c
  rw [houseH_mul_apply]
  simp only [Multi.leftT, Matrix.of_apply]
  by_cases h : (i : ℕ) + 1 ≤ (r : ℕ) ∧ (i : ℕ) ≤ (c : ℕ)
  · rw [if_pos h]
    ring
  · rw [if_neg h]
    push_neg at h
    by_cases hr : (i : ℕ) + 1 ≤ (r : ℕ)
    · have hc : (c : ℕ) < (i : ℕ) := h hr
      have hdot : (v ⬝ᵥ fun k => A k c) = 0 := by
        simp only [dotProduct]
        apply Finset.sum_eq_zero
        intro k _
        by_cases hk : (k : ℕ) < (i : ℕ) + 1
        · rw [hv k hk, zero_mul]
        · rw [hz c hc k (by omega), mul_zero]
      rw [hdot]
      ring
    · rw [hv r (by omega)]
      ring

lemma rightT_eq_mul {n : ℕ} (start : ℕ) (i : Fin n) (v : Fin n → ℝ)
    (A : Matrix (Fin n) (Fin n) ℝ)
    (hv : ∀ r : Fin n, (r : ℕ) < (i : ℕ) + 1 → v r = 0)
    (hrows : ∀ r : Fin n, (r : ℕ) < start →
      ∀ c : Fin n, (i : ℕ) + 1 ≤ (c : ℕ) → A r c = 0) :
    Multi.rightT start i v A = A * houseH v := by
  ext r c
  rw [mul_houseH_apply]
  simp only [Multi.rightT, Matrix.of_apply]
  by_cases h : start ≤ (r : ℕ) ∧ (i : ℕ) + 1 ≤ (c : ℕ)
  · rw [if_pos h]
    ring
  · rw [if_neg h]
    push_neg at h
    by_cases hc : (i : ℕ) + 1 ≤ (c : ℕ)
    · have hrlt : (r : ℕ) < start := by
        by_contra hcon
        push_neg at hcon
        have := h hcon
        omega
      have hdot : ((fun k => A r k) ⬝ᵥ v) = 0 := by
        simp only [dotProduct]
        apply Finset.sum_eq_zero
        intro k _
        by_cases hk : (k : ℕ) < (i : ℕ) + 1
        · rw [hv k hk, mul_zero]
        · rw [hrows r hrlt k (by omega), zero_mul]
      rw [hdot]
      ring
    · rw [hv c (by omega)]
      ring

lemma leftT_house_col {n : ℕ} (i : Fin n) (A : Matrix (Fin n) (Fin n) ℝ)
    (r : Fin n) (hr : (i : ℕ) + 2 ≤ (r : ℕ))
    (ha : Multi.house_a i A ≠ 0) :
    Multi.leftT i (Multi.house_v i A) A r i = 0 := by
  have hin : (i : ℕ) + 1 < n := by
    have := r.isLt
    omega
  set a := Multi.house_a i A with ha_def
  have ha_le : ∀ k : Fin n, (i : ℕ) + 1 ≤ (k : ℕ) → a k = A k i := by
    intro k hk
    rw [ha_def]
    exact house_a_apply_le i A k hk
  set r1 : Fin n := ⟨(i : ℕ) + 1, hin⟩ with hr1_def
  have hr1v : (r1 : ℕ) = (i : ℕ) + 1 := rfl
  have ha0 : Multi.house_a0 i A = a r1 := by
    simp only [Multi.house_a0]
    rw [dif_pos hin, ha_le r1 (by rw [hr1v])]
  set s := LinalgUtils.sign (Multi.house_a0 i A) with hs_def
  set cc := LinalgUtils.l2_norm a with hcc_def
  set v := Multi.house_v i A with hv_def
  set eInd : Fin n → ℝ := fun k => if (k : ℕ) = (i : ℕ) + 1 then (1 : ℝ) else 0
    with he_def
  have hv_split : v = a + (s * cc) • eInd := by
    funext k
    simp only [hv_def, Multi.house_v, Pi.add_apply, Pi.smul_apply, smul_eq_mul,
      he_def]
  have hvpad : ∀ k : Fin n, (k : ℕ) < (i : ℕ) + 1 → v k = 0 :=
    fun k hk => house_v_padding i A k hk
  have hind : ∀ w : Fin n → ℝ, w ⬝ᵥ eInd = w r1 := by
    intro w
    simp only [he_def, dotProduct]
    rw [Finset.sum_eq_single r1]
    · simp
    · intro k _ hk
      rw [if_neg, mul_zero]
      intro hh
      exact hk (Fin.ext (by rw [hh, hr1v]))
    · intro hmem
      exact absurd (Finset.mem_univ r1) hmem
  have hind2 : ∀ w : Fin n → ℝ, eInd ⬝ᵥ w = w r1 := by
    intro w
    rw [dotProduct_comm]
    exact hind w
  simp only [Multi.leftT, Matrix.of_apply]
  rw [if_pos ⟨by omega, le_refl _⟩]
  have hcol : (v ⬝ᵥ fun r2 => A r2 i) = v ⬝ᵥ a := by
    simp only [dotProduct]
    apply Finset.sum_congr rfl
    intro k _
    by_cases hk : (i : ℕ) + 1 ≤ (k : ℕ)
    · rw [ha_le k hk]
    · rw [hvpad k (by omega), zero_mul, zero_mul]
  have hdot_a_pos : 0 < a ⬝ᵥ a := by
    rcases lt_or_eq_of_le (LinalgUtils.dotProduct_self_nonneg a) with h1 | h1
    · exact h1
    · exact absurd (dotProduct_self_eq_zero.mp h1.symm) ha
  have hcc_pos : 0 < cc := by
    rw [hcc_def, LinalgUtils.l2_norm]
    exact Real.sqrt_pos.mpr hdot_a_pos
  have hcc_sq : cc ^ 2 = a ⬝ᵥ a := by
    rw [hcc_def, LinalgUtils.l2_norm]
    exact Real.sq_sqrt (le_of_lt hdot_a_pos)
  have hs_abs : s * a r1 = |a r1| := by
    rw [hs_def, ha0, LinalgUtils.sign]
    by_cases hpos : 0 ≤ a r1
    · rw [if_pos hpos, one_mul, abs_of_nonneg hpos]
    · rw [if_neg hpos, abs_of_neg (lt_of_not_ge hpos)]
      ring
  have hs_sq : s * s = 1 := by
    rw [hs_def, LinalgUtils.sign]
    by_cases hpos : 0 ≤ Multi.house_a0 i A
    · rw [if_pos hpos]; norm_num
    · rw [if_neg hpos]; norm_num
  have heInd1 : eInd r1 = 1 := by
    simp [he_def]
  have hva : v ⬝ᵥ a = cc * (cc + |a r1|) := by
    rw [hv_split, add_dotProduct, smul_dotProduct, hind2 a, smul_eq_mul,
      ← hcc_sq]
    linear_combination cc * hs_abs
  have hvv : v ⬝ᵥ v = 2 * cc * (cc + |a r1|) := by
    rw [hv_split]
    simp only [add_dotProduct, dotProduct_add, smul_dotProduct,
      dotProduct_smul, smul_eq_mul]
    rw [hind a, hind2 a, hind eInd, heInd1, ← hcc_sq]
    linear_combination (2 * cc) * hs_abs + (cc * cc) * hs_sq
  have hfrac : (2 * (v ⬝ᵥ a)) / (v ⬝ᵥ v) = 1 := by
    rw [hva, hvv]
    have hne : 2 * cc * (cc + |a r1|) ≠ 0 := by
      have h1 : 0 < cc + |a r1| := by positivity
      positivity
    rw [div_eq_one_iff_eq hne]
    ring
  rw [hcol, hfrac, one_mul, ← ha_le r (by omega)]
  have hvr : v r = a r := by
    rw [hv_split]
    simp only [Pi.add_apply, Pi.smul_apply, smul_eq_mul, he_def]
    rw [if_neg (by omega), mul_zero, add_zero]
  rw [hvr, sub_self]

lemma leftT_untouched {n : ℕ} (i : Fin n) (v : Fin n → ℝ)
    (A : Matrix (Fin n) (Fin n) ℝ) (r c : Fin n) (hc : (c : ℕ) < (i : ℕ)) :
    Multi.leftT i v A r c = A r c := by
  simp only [Multi.leftT, Matrix.of_apply]
  rw [if_neg]
  intro h
  omega

lemma rightT_untouched {n : ℕ} (start : ℕ) (i : Fin n) (v : Fin n → ℝ)
    (A : Matrix (Fin n) (Fin n) ℝ) (r c : Fin n) (hc : (c : ℕ) < (i : ℕ) + 1) :
    Multi.rightT start i v A r c = A r c := by
  simp only [Multi.rightT, Matrix.of_apply]
  rw [if_neg]
  intro h
  omega

lemma hessStep_untouched {n : ℕ} (sym : Bool) (i : Fin n)
    (A : Matrix (Fin n) (Fin n) ℝ) (r c : Fin n) (hc : (c : ℕ) < (i : ℕ)) :
    Multi.hessStep sym i A r c = A r c := by
  simp only [Multi.hessStep]
  rw [rightT_untouched _ _ _ _ _ _ (by omega), leftT_untouched _ _ _ _ _ hc]

lemma hessStep_col_i {n : ℕ} (sym : Bool) (i : Fin n)
    (A : Matrix (Fin n) (Fin n) ℝ) (r : Fin n) (hr : (i : ℕ) + 2 ≤ (r : ℕ))
    (ha : Multi.house_a i A ≠ 0) :
    Multi.hessStep sym i A r i = 0 := by
  simp only [Multi.hessStep]
  rw [rightT_untouched _ _ _ _ _ _ (by omega)]
  exact leftT_house_col i A r hr ha

/-- The below-sub-diagonal zero pattern in the first `k` columns. -/
def ZerosBelow {n : ℕ} (k : ℕ) (A : Matrix (Fin n) (Fin n) ℝ) : Prop :=
  ∀ c r : Fin n, (c : ℕ) < k → (c : ℕ) + 1 < (r : ℕ) → A r c = 0

lemma hessStep_ZerosBelow {n : ℕ} (sym : Bool) (i : Fin n)
    (A : Matrix (Fin n) (Fin n) ℝ) (hZ : ZerosBelow (i : ℕ) A)
    (ha : Multi.house_a i A ≠ 0) :
    ZerosBelow ((i : ℕ) + 1) (Multi.hessStep sym i A) := by
  intro c r hc hcr
  by_cases hci : (c : ℕ) < (i : ℕ)
  · rw [hessStep_untouched sym i A r c hci]
    exact hZ c r hci hcr
  · have hc_eq : c = i := Fin.ext (by omega)
    rw [hc_eq]
    rw [hc_eq] at hcr
    exact hessStep_col_i sym i A r (by omega) ha

lemma hessIter_ZerosBelow {n : ℕ} (sym : Bool) (A : Matrix (Fin n) (Fin n) ℝ)
    (hnd : Multi.hessNondegenerate sym A) :
    ∀ m : ℕ, m ≤ n - 2 → ZerosBelow m (Multi.hessIter sym A m) := by
  intro m
  induction m with
  | zero =>
      intro _ c r hc _
      exact absurd hc (Nat.not_lt_zero _)
  | succ k ih =>
      intro hm
      show ZerosBelow (k + 1) (Multi.hessStepN sym k (Multi.hessIter sym A k))
      have hk2 : k < n - 2 := by omega
      have hk : k < n := by omega
      simp only [Multi.hessStepN]
      rw [dif_pos hk]
      exact hessStep_ZerosBelow sym ⟨k, hk⟩ (Multi.hessIter sym A k)
        (ih (by omega)) (hnd k hk2)

lemma hessStep_conj {n : ℕ} (sym : Bool) (i : Fin n)
    (A : Matrix (Fin n) (Fin n) ℝ) (hZ : ZerosBelow (i : ℕ) A)
    (hsymA : sym = true → Aᵀ = A) :
    Multi.hessStep sym i A
      = houseH (Multi.house_v i A) * A * houseH (Multi.house_v i A) := by
  have hvpad : ∀ r : Fin n, (r : ℕ) < (i : ℕ) + 1 → Multi.house_v i A r = 0 :=
    house_v_padding i A
  have hzcols : ∀ c : Fin n, (c : ℕ) < (i : ℕ) →
      ∀ r : Fin n, (i : ℕ) + 1 ≤ (r : ℕ) → A r c = 0 :=
    fun c hc r hr => hZ c r hc (by omega)
  have hleft : Multi.leftT i (Multi.house_v i A) A
      = houseH (Multi.house_v i A) * A :=
    leftT_eq_mul i (Multi.house_v i A) A hvpad hzcols
  cases sym with
  | false =>
      simp only [Multi.hessStep, if_neg (Bool.false_ne_true)]
      rw [hleft, rightT_eq_mul 0 i (Multi.house_v i A) _ hvpad
        (fun r hr => absurd hr (Nat.not_lt_zero _))]
  | true =>
      have hsym : Aᵀ = A := hsymA rfl
      have hrows : ∀ r : Fin n, (r : ℕ) < (i : ℕ) →
          ∀ c : Fin n, (i : ℕ) + 1 ≤ (c : ℕ) →
          (houseH (Multi.house_v i A) * A) r c = 0 := by
        intro r hr c hc
        rw [houseH_mul_apply, hvpad r (by omega), zero_mul, mul_zero, sub_zero]
        have hAsym : A r c = A c r := by
          conv_lhs => rw [← hsym]
          rw [Matrix.transpose_apply]
        rw [hAsym]
        exact hZ r c hr (by omega)
      simp only [Multi.hessStep, eq_self_iff_true, if_true]
      rw [hleft, rightT_eq_mul (i : ℕ) i (Multi.house_v i A) _ hvpad hrows]

lemma hessIter_conj {n : ℕ} (sym : Bool) (A : Matrix (Fin n) (Fin n) ℝ)
    (hsymA : sym = true → Aᵀ = A) (hnd : Multi.hessNondegenerate sym A) :
    ∀ m : ℕ, m ≤ n - 2 →
    ∃ Q : Matrix (Fin n) (Fin n) ℝ,
      Qᵀ * Q = 1 ∧ Multi.hessIter sym A m = Qᵀ * A * Q := by
  intro m
  induction m with
  | zero =>
      intro _
      refine ⟨1, ?_, ?_⟩
      · rw [Matrix.transpose_one, Matrix.one_mul]
      · rw [Matrix.transpose_one, Matrix.one_mul, Matrix.mul_one]
        rfl
  | succ k ih =>
      intro hm
      obtain ⟨Q, hQ, hEq⟩ := ih (by omega)
      have hk : k < n := by omega
      show ∃ Q', Q'ᵀ * Q' = 1 ∧
        Multi.hessStepN sym k (Multi.hessIter sym A k) = Q'ᵀ * A * Q'
      have hZB : ZerosBelow ((⟨k, hk⟩ : Fin n) : ℕ) (Multi.hessIter sym A k) :=
        hessIter_ZerosBelow sym A hnd k (by omega)
      have hsymB : sym = true → (Multi.hessIter sym A k)ᵀ = Multi.hessIter sym A k := by
        intro hs
        rw [hEq, Matrix.transpose_mul, Matrix.transpose_mul,
          Matrix.transpose_transpose, hsymA hs, Matrix.mul_assoc]
      have hstep := hessStep_conj sym ⟨k, hk⟩ (Multi.hessIter sym A k) hZB hsymB
      refine ⟨Q * houseH (Multi.house_v ⟨k, hk⟩ (Multi.hessIter sym A k)), ?_, ?_⟩
      · rw [Matrix.transpose_mul, houseH_transpose, Matrix.mul_assoc,
          ← Matrix.mul_assoc Qᵀ Q _, hQ, Matrix.one_mul, houseH_mul_houseH]
      · simp only [Multi.hessStepN]
        rw [dif_pos hk, hstep, hEq, Matrix.transpose_mul, houseH_transpose]
        simp only [Matrix.mul_assoc]

/-- Claim C6 (amended): for every square matrix `A` whose `hessenberg` run is
non-degenerate — no executed step meets a zero Householder slice, the case in
which the source computes `0.0/0.0 = nan` at `multi.py` lines 90/93 and
poisons the remaining rows — `hessenberg(A)` is zero strictly below the first
sub-diagonal; when `A` is exactly symmetric, or when the tolerance-based
symmetry test fails (so the full right transform runs), the result is an
orthogonal similarity transform of `A` with the same characteristic
polynomial — hence the same eigenvalue multiset; and for exactly symmetric
`A` the result is additionally zero above the first super-diagonal, i.e.
tridiagonal.  (For a matrix that is within the closeness tolerance of
symmetric but not exactly symmetric, the symmetric fast path skips updates it
is not entitled to skip and similarity fails even on the non-degenerate path;
see the counterexample.) -/
theorem hessenberg_spec {n : ℕ} (A : Matrix (Fin n) (Fin n) ℝ)
    (hnd : Multi.hessNondegenerate (LinalgUtils.is_symmetric A) A) :
    (∀ r c : Fin n, (c : ℕ) + 1 < (r : ℕ) → Multi.hessenberg A r c = 0)
    ∧ ((Aᵀ = A ∨ LinalgUtils.is_symmetric A = false) →
        ∃ Q, Qᵀ * Q = 1 ∧ Multi.hessenberg A = Qᵀ * A * Q
          ∧ (Multi.hessenberg A).charpoly = A.charpoly)
    ∧ (Aᵀ = A → ∀ r c : Fin n, (r : ℕ) + 1 < (c : ℕ) → Multi.hessenberg A r c = 0) := by
  refine ⟨?_, ?_, ?_⟩
  · intro r c hrc
    have hZ := hessIter_ZerosBelow (LinalgUtils.is_symmetric A) A hnd
      (n - 2) le_rfl
    by_cases hcn : (c : ℕ) < n - 2
    · exact hZ c r hcn hrc
    · exfalso
      have h1 := r.isLt
      have h2 := c.isLt
      omega
  · intro hcase
    rcases hcase with hsymA | hflag
    · have hflag : LinalgUtils.is_symmetric A = true :=
        LinalgUtils.is_symmetric_eq_true.mpr
          (LinalgUtils.isSymCloseP_of_transpose_eq hsymA)
      rw [hflag] at hnd
      obtain ⟨Q, hQ, hEq⟩ := hessIter_conj true A (fun _ => hsymA) hnd
        (n - 2) le_rfl
      refine ⟨Q, hQ, ?_, ?_⟩
      · rw [Multi.hessenberg, hflag]
        exact hEq
      · rw [Multi.hessenberg, hflag, hEq]
        exact charpoly_conj_orth Q A hQ
    · rw [hflag] at hnd
      obtain ⟨Q, hQ, hEq⟩ :=
        hessIter_conj false A (fun h => absurd h (by simp)) hnd (n - 2) le_rfl
      refine ⟨Q, hQ, ?_, ?_⟩
      · rw [Multi.hessenberg, hflag]
        exact hEq
      · rw [Multi.hessenberg, hflag, hEq]
        exact charpoly_conj_orth Q A hQ
  · intro hsymA r c hrc
    have hflag : LinalgUtils.is_symmetric A = true :=
      LinalgUtils.is_symmetric_eq_true.mpr
        (LinalgUtils.isSymCloseP_of_transpose_eq hsymA)
    rw [hflag] at hnd
    obtain ⟨Q, hQ, hEq⟩ := hessIter_conj true A (fun _ => hsymA) hnd
      (n - 2) le_rfl
    have hsymH : (Multi.hessIter true A (n - 2))ᵀ = Multi.hessIter true A (n - 2) := by
      rw [hEq, Matrix.transpose_mul, Matrix.transpose_mul,
        Matrix.transpose_transpose, hsymA, Matrix.mul_assoc]
    rw [Multi.hessenberg, hflag]
    have hentry : Multi.hessIter true A (n - 2) r c
        = Multi.hessIter true A (n - 2) c r := by
      conv_lhs => rw [← hsymH]
      rw [Matrix.transpose_apply]
    rw [hentry]
    have hZ := hessIter_ZerosBelow true A hnd (n - 2) le_rfl
    by_cases hrn : (r : ℕ) < n - 2
    · exact hZ r c hrn hrc
    · exfalso
      have h1 := c.isLt
      omega

/-- A 3×3 exactly symmetric matrix whose single Hessenberg step has the
nonzero Householder slice `a = A[1:, 0] = (3, 4)`: its run is
non-degenerate with a genuinely executed step. -/
def Awit : Matrix (Fin 3) (Fin 3) ℝ :=
  !![0, 3, 4; 3, 0, 0; 4, 0, 0]

/-- Witness for the amended claim C6 at a symmetric matrix with a nonzero
Householder slice, discharging the non-degeneracy hypothesis on a genuinely
executed step. -/
theorem hessenberg_spec_witness :
    (Multi.hessNondegenerate (LinalgUtils.is_symmetric Awit) Awit
      ∧ Awitᵀ = Awit)
    ∧ (∃ Q, Qᵀ * Q = 1 ∧ Multi.hessenberg Awit = Qᵀ * Awit * Q
        ∧ (Multi.hessenberg Awit).charpoly = Awit.charpoly) := by
  have hA : Awitᵀ = Awit := by
    ext i j
    fin_cases i <;> fin_cases j <;> rfl
  have hnd : Multi.hessNondegenerate (LinalgUtils.is_symmetric Awit) Awit := by
    intro k hk
    have hk0 : k = 0 := by omega
    subst hk0
    show Multi.house_a (0 : Fin 3)
      (Multi.hessIter (LinalgUtils.is_symmetric Awit) Awit 0) ≠ 0
    intro hcontra
    have h1 := congrFun hcontra 1
    rw [house_a_apply_le (0 : Fin 3)
      (Multi.hessIter (LinalgUtils.is_symmetric Awit) Awit 0) 1 (by decide)] at h1
    have h2 : Multi.hessIter (LinalgUtils.is_symmetric Awit) Awit 0 = Awit :=
      rfl
    rw [h2] at h1
    norm_num [Awit, Matrix.cons_val_one, Matrix.cons_val_zero,
      Matrix.vecHead, Matrix.vecTail] at h1
  exact ⟨⟨hnd, hA⟩, (hessenberg_spec Awit hnd).2.1 (Or.inl hA)⟩

/-- A matrix within the `np.allclose` tolerance of symmetric (asymmetry
`1e-9` at entry (0,2)) but not exactly symmetric; it takes the symmetric fast
path of `hessenberg`, whose right transform skips rows above the pivot. -/
def Acex : Matrix (Fin 4) (Fin 4) ℝ :=
  !![1, 2, 1e-9, 0; 2, 2, -3, -4; 0, -3, 3, 1; 0, -4, 1, 4]

/-- The state of the counterexample matrix after Hessenberg step `i = 0`. -/
def Bcex : Matrix (Fin 4) (Fin 4) ℝ :=
  !![1, -2, 1e-9, 0; -2, 2, 3, 4; 0, 3, 3, 1; 0, 4, 1, 4]

/-- The state after Hessenberg step `i = 1`: row 0 keeps its stale entries
`(1e-9, 0)` in columns 2 and 3 because the symmetric path skips it. -/
def Ccex : Matrix (Fin 4) (Fin 4) ℝ :=
  !![1, -2, 1e-9, 0; -2, 2, -5, 0; 0, -5, 23/5, -1/5; 0, 0, -1/5, 12/5]

lemma npIsClose_self (x : ℝ) : npIsClose x x := by
  unfold npIsClose npAtol npRtol
  rw [sub_self, abs_zero]
  positivity

lemma Acex_is_symmetric : LinalgUtils.is_symmetric Acex = true := by
  rw [LinalgUtils.is_symmetric_eq_true]
  intro i j
  have hd1 : npIsClose (1e-9 : ℝ) 0 := by
    unfold npIsClose npAtol npRtol
    rw [sub_zero, abs_of_nonneg (by norm_num), abs_zero]
    norm_num
  have hd2 : npIsClose 0 (1e-9 : ℝ) := by
    unfold npIsClose npAtol npRtol
    rw [zero_sub, abs_neg, abs_of_nonneg (by norm_num : (0 : ℝ) ≤ 1e-9)]
    norm_num
  fin_cases i <;> fin_cases j <;>
    simp only [Acex, Matrix.transpose_apply, Matrix.cons_val_zero,
      Matrix.cons_val_one, Matrix.head_cons, Matrix.cons_val_two,
      Matrix.tail_cons, Matrix.cons_val_three, Matrix.head_fin_const,
      Matrix.cons_val', Matrix.empty_val', Matrix.cons_val_fin_one,
      Matrix.of_apply] <;>
    first
      | exact npIsClose_self _
      | exact hd1
      | exact hd2

lemma sqrt_four : Real.sqrt 4 = 2 := by
  rw [show (4 : ℝ) = 2 ^ 2 by norm_num, Real.sqrt_sq (by norm_num)]

lemma sqrt_twentyfive : Real.sqrt 25 = 5 := by
  rw [show (25 : ℝ) = 5 ^ 2 by norm_num, Real.sqrt_sq (by norm_num)]

lemma cex_house_v0 :
    Multi.house_v (⟨0, by norm_num⟩ : Fin 4) Acex = ![0, 4, 0, 0] := by
  have hva : Multi.house_a (⟨0, by norm_num⟩ : Fin 4) Acex = ![0, 2, 0, 0] := by
    funext r
    fin_cases r <;>
      simp [Multi.house_a, Acex, Matrix.vecHead, Matrix.vecTail]
  have hl2 : LinalgUtils.l2_norm ![(0 : ℝ), 2, 0, 0] = 2 := by
    rw [LinalgUtils.l2_norm]
    have : (![(0 : ℝ), 2, 0, 0]) ⬝ᵥ (![(0 : ℝ), 2, 0, 0]) = 4 := by
      simp [dotProduct, Fin.sum_univ_four]
      norm_num
    rw [this, sqrt_four]
  have ha0 : Multi.house_a0 (⟨0, by norm_num⟩ : Fin 4) Acex = 2 := by
    simp only [Multi.house_a0]
    rw [dif_pos (by norm_num)]
    simp [Acex]
  have hsg : LinalgUtils.sign (2 : ℝ) = 1 := by
    rw [LinalgUtils.sign, if_pos (by norm_num)]
  funext r
  simp only [Multi.house_v, hva, hl2, ha0, hsg]
  fin_cases r <;> norm_num

lemma cex_step0 :
    Multi.hessStep true (⟨0, by norm_num⟩ : Fin 4) Acex = Bcex := by
  have hL : Multi.leftT (⟨0, by norm_num⟩ : Fin 4) ![0, 4, 0, 0] Acex
      = !![1, 2, 1e-9, 0; -2, -2, 3, 4; 0, -3, 3, 1; 0, -4, 1, 4] := by
    ext r c
    fin_cases r <;> fin_cases c <;>
      (simp [Multi.leftT, Acex, dotProduct, Fin.sum_univ_four,
        Matrix.vecHead, Matrix.vecTail]
       all_goals first
         | decide
         | norm_num
       all_goals decide)
  have hR : Multi.rightT 0 (⟨0, by norm_num⟩ : Fin 4) ![0, 4, 0, 0]
      (!![1, 2, 1e-9, 0; -2, -2, 3, 4; 0, -3, 3, 1; 0, -4, 1, 4]) = Bcex := by
    ext r c
    fin_cases r <;> fin_cases c <;>
      (simp [Multi.rightT, Bcex, dotProduct, Fin.sum_univ_four,
        Matrix.vecHead, Matrix.vecTail]
       all_goals first
         | decide
         | norm_num
       all_goals decide)
  simp only [Multi.hessStep, cex_house_v0, eq_self_iff_true, if_true]
  rw [hL]
  exact hR

lemma cex_house_v1 :
    Multi.house_v (⟨1, by norm_num⟩ : Fin 4) Bcex = ![0, 0, 8, 4] := by
  have hva : Multi.house_a (⟨1, by norm_num⟩ : Fin 4) Bcex = ![0, 0, 3, 4] := by
    funext r
    fin_cases r <;>
      simp [Multi.house_a, Bcex, Matrix.vecHead, Matrix.vecTail]
  have hl2 : LinalgUtils.l2_norm ![(0 : ℝ), 0, 3, 4] = 5 := by
    rw [LinalgUtils.l2_norm]
    have : (![(0 : ℝ), 0, 3, 4]) ⬝ᵥ (![(0 : ℝ), 0, 3, 4]) = 25 := by
      simp [dotProduct, Fin.sum_univ_four]
      norm_num
    rw [this, sqrt_twentyfive]
  have ha0 : Multi.house_a0 (⟨1, by norm_num⟩ : Fin 4) Bcex = 3 := by
    simp only [Multi.house_a0]
    rw [dif_pos (by norm_num)]
    simp [Bcex]
  have hsg : LinalgUtils.sign (3 : ℝ) = 1 := by
    rw [LinalgUtils.sign, if_pos (by norm_num)]
  funext r
  simp only [Multi.house_v, hva, hl2, ha0, hsg]
  fin_cases r <;> norm_num

lemma cex_step1 :
    Multi.hessStep true (⟨1, by norm_num⟩ : Fin 4) Bcex = Ccex := by
  have hL : Multi.leftT (⟨1, by norm_num⟩ : Fin 4) ![0, 0, 8, 4] Bcex
      = !![1, -2, 1e-9, 0; -2, 2, 3, 4;
           0, -5, -13/5, -19/5; 0, 0, -9/5, 8/5] := by
    ext r c
    fin_cases r <;> fin_cases c <;>
      (simp [Multi.leftT, Bcex, dotProduct, Fin.sum_univ_four,
        Matrix.vecHead, Matrix.vecTail]
       all_goals first
         | decide
         | norm_num
       all_goals decide)
  have hR : Multi.rightT 1 (⟨1, by norm_num⟩ : Fin 4) ![0, 0, 8, 4]
      (!![1, -2, 1e-9, 0; -2, 2, 3, 4;
          0, -5, -13/5, -19/5; 0, 0, -9/5, 8/5]) = Ccex := by
    ext r c
    fin_cases r <;> fin_cases c <;>
      (simp [Multi.rightT, Ccex, dotProduct, Fin.sum_univ_four,
        Matrix.vecHead, Matrix.vecTail]
       all_goals first
         | decide
         | norm_num
       all_goals decide)
  simp only [Multi.hessStep, cex_house_v1, eq_self_iff_true, if_true]
  rw [hL]
  exact hR

lemma cex_hessenberg : Multi.hessenberg Acex = Ccex := by
  rw [Multi.hessenberg, Acex_is_symmetric]
  show Multi.hessStepN true 1 (Multi.hessStepN true 0 (Multi.hessIter true Acex 0)) = Ccex
  simp only [Multi.hessIter, Multi.hessStepN]
  rw [dif_pos (by norm_num : (0 : ℕ) < 4), dif_pos (by norm_num : (1 : ℕ) < 4),
    cex_step0, cex_step1]

/-- Claim C6 counterexample: at the nearly-but-not-exactly symmetric matrix
`Acex` the tolerance-based symmetry test passes, the symmetric fast path
skips the row-0 right-transform updates, and the result of `hessenberg` has a
different determinant — hence a different characteristic polynomial and a
different eigenvalue multiset — from the input, contradicting the claim that
the eigenvalue multiset is preserved for every square matrix. -/
theorem hessenberg_claim_counterexample :
    (Multi.hessenberg Acex).det ≠ Acex.det
    ∧ (Multi.hessenberg Acex).charpoly ≠ Acex.charpoly := by
  have hdetA : Acex.det = -82 - 16 * (1e-9 : ℝ) := by
    simp [Acex, Matrix.det_succ_row_zero, Fin.sum_univ_succ, Fin.succAbove,
      Fin.lt_def, Matrix.vecHead, Matrix.vecTail]
    norm_num
  have hdetC : Ccex.det = -82 + 24 * (1e-9 : ℝ) := by
    simp [Ccex, Matrix.det_succ_row_zero, Fin.sum_univ_succ, Fin.succAbove,
      Fin.lt_def, Matrix.vecHead, Matrix.vecTail]
    norm_num
  have hne : (Multi.hessenberg Acex).det ≠ Acex.det := by
    rw [cex_hessenberg, hdetC, hdetA]
    norm_num
  refine ⟨hne, fun h => hne ?_⟩
  rw [Matrix.det_eq_sign_charpoly_coeff, Matrix.det_eq_sign_charpoly_coeff, h]

/-- A heap of square-matrix buffers: numpy arrays that exist during a call,
addressed by allocation order.  `mem` is total (unallocated refs hold junk);
`nextRef` is the next fresh address.  The caller's input matrix lives at an
already-allocated ref (`rA < nextRef`). -/
structure Store (n : ℕ) where
  nextRef : ℕ
  mem : ℕ → Matrix (Fin n) (Fin n) ℝ

/-- Allocate a fresh buffer holding `M` (e.g. `np.array(A)`, `np.zeros_like`):
returns its ref and the grown store. -/
def npAlloc {n : ℕ} (M : Matrix (Fin n) (Fin n) ℝ) (s : Store n) : ℕ × Store n :=
  (s.nextRef, ⟨s.nextRef + 1, fun q => if q = s.nextRef then M else s.mem q⟩)

/-- Write a buffer in place (slice/column assignment). -/
def npWrite {n : ℕ} (r : ℕ) (M : Matrix (Fin n) (Fin n) ℝ) (s : Store n) :
    Store n :=
  ⟨s.nextRef, fun q => if q = r then M else s.mem q⟩

/-- Read a buffer. -/
def npRead {n : ℕ} (r : ℕ) (s : Store n) : Matrix (Fin n) (Fin n) ℝ := s.mem r

/-- `M` with column `i` replaced by `v`: the assignment `M[:, i] = v`. -/
def setCol {n : ℕ} (M : Matrix (Fin n) (Fin n) ℝ) (i : ℕ) (v : Fin n → ℝ) :
    Matrix (Fin n) (Fin n) ℝ :=
  Matrix.of fun r c => if (c : ℕ) = i then v r else M r c

lemma npWrite_nextRef {n : ℕ} (r : ℕ) (M : Matrix (Fin n) (Fin n) ℝ)
    (s : Store n) : (npWrite r M s).nextRef = s.nextRef := rfl

lemma npWrite_mem_ne {n : ℕ} {r q : ℕ} (M : Matrix (Fin n) (Fin n) ℝ)
    (s : Store n) (h : q ≠ r) : (npWrite r M s).mem q = s.mem q := by
  simp only [npWrite]
  rw [if_neg h]

lemma npAlloc_snd_nextRef {n : ℕ} (M : Matrix (Fin n) (Fin n) ℝ)
    (s : Store n) : ((npAlloc M s).2).nextRef = s.nextRef + 1 := rfl

lemma npAlloc_snd_mem_ne {n : ℕ} (M : Matrix (Fin n) (Fin n) ℝ)
    (s : Store n) {q : ℕ} (h : q ≠ s.nextRef) :
    ((npAlloc M s).2).mem q = s.mem q := by
  simp only [npAlloc]
  rw [if_neg h]

lemma foldl_write_mem {n : ℕ} (r q : ℕ) (hq : q ≠ r)
    (g : ℕ → Store n → Matrix (Fin n) (Fin n) ℝ) (l : List ℕ) (s : Store n) :
    (l.foldl (fun s k => npWrite r (g k s) s) s).mem q = s.mem q := by
  induction l generalizing s with
  | nil => rfl
  | cons x xs ih => rw [List.foldl_cons, ih, npWrite_mem_ne _ _ hq]

lemma foldl_write_nextRef {n : ℕ} (r : ℕ)
    (g : ℕ → Store n → Matrix (Fin n) (Fin n) ℝ) (l : List ℕ) (s : Store n) :
    (l.foldl (fun s k => npWrite r (g k s) s) s).nextRef = s.nextRef := by
  induction l generalizing s with
  | nil => rfl
  | cons x xs ih => rw [List.foldl_cons, ih, npWrite_nextRef]

namespace Multi

/-- Store-passing rendering of `hessenberg(A)` (`src/linalg/eigen/multi.py`):
the caller's matrix lives at ref `rA`; the routine reads it, allocates a
private copy (`A = np.array(A)`), and every slice assignment of the loop
mutates that copy only — one write-back per loop iteration, composing the
iteration's slice writes, with the numeric content given by the pure
`hessStepN`.  The Householder vectors `v` are callee-local 1-D temporaries
and stay at value level.  Returns the ref of the result buffer. -/
def hessenberg_st {n : ℕ} (rA : ℕ) (s0 : Store n) : ℕ × Store n :=
  let A := npRead rA s0
  let rc := npAlloc A s0
  let sym := LinalgUtils.is_symmetric A
  let s2 := (List.range (n - 2)).foldl
    (fun s k => npWrite rc.1 (Multi.hessStepN sym k (npRead rc.1 s)) s) rc.2
  (rc.1, s2)

/-- Store-passing rendering of `qr_algorithm(A, hess, sort)`: after the
symmetry assert it allocates `backup = np.array(A)`, calls `hessenberg` on
the caller's ref when `hess` (which copies internally), allocates the square
buffer `eigvecs = np.zeros_like(A)` and performs the per-column assignments
`eigvecs[:, i] = eigvec` into it.  The loop iterates, `eigvals`, and the
sorted copies produced by fancy indexing are freshly created callee-local
values, so they stay at value level: the returned value is that of the pure
`qr_algorithm` applied to the read matrix. -/
def qr_algorithm_st {m : ℕ}
    (dec : Matrix (Fin (m + 1)) (Fin (m + 1)) ℝ →
      Matrix (Fin (m + 1)) (Fin (m + 1)) ℝ × Matrix (Fin (m + 1)) (Fin (m + 1)) ℝ)
    (slv : Matrix (Fin (m + 1)) (Fin (m + 1)) ℝ → (Fin (m + 1) → ℝ) → (Fin (m + 1) → ℝ))
    (starts : ℕ → (Fin (m + 1) → ℝ)) (rA : ℕ) (hess sort : Bool)
    (s0 : Store (m + 1)) :
    Except String (List ℝ × List (Fin (m + 1) → ℝ)) × Store (m + 1) :=
  let A := npRead rA s0
  if LinalgUtils.is_symmetric A then
    let rb := npAlloc A s0
    let s1 := if hess then (hessenberg_st rA rb.2).2 else rb.2
    let rv := npAlloc 0 s1
    let Af := Multi.qrLoop dec 1000 (if hess then Multi.hessenberg A else A)
    let s2 := (List.range (m + 1)).foldl
      (fun s i => npWrite rv.1
        (setCol (npRead rv.1 s) i
          (match Single.rayleigh_quotient_iteration slv A
              ((LinalgUtils.diag Af).getD i 0) (starts i) 1 with
            | .ok p => p.2
            | .error _ => 0)) s) rv.2
    (Multi.qr_algorithm dec slv starts A hess sort, s2)
  else (.error "[!] Matrix must be symmetric.", s0)

/-- Store-passing rendering of `projected_iteration(A, k, max_iter, sort)`:
the routine only reads the caller's matrix; its working arrays — the random
start vectors, the projected iterates mutated by `v -= proj_sum`, the
`(N, k)` matrix `eigvecs` it assigns columns into, `eigvals`, and the sorted
copies — are all freshly created callee-local arrays that never alias the
input, so they stay at value level and the store is untouched. -/
def projected_iteration_st {N : ℕ} (rA : ℕ) (k : ℕ)
    (starts : ℕ → (Fin N → ℝ)) (max_iter : ℕ) (sort : Bool) (s0 : Store N) :
    Except String (List ℝ × List (Fin N → ℝ)) × Store N :=
  (Multi.projected_iteration (npRead rA s0) k starts max_iter sort, s0)

end Multi

namespace Single

/-- Store-passing rendering of `power_iteration(A, max_iter)`: only reads the
caller's matrix; `v` is a fresh callee-local vector (`np.random.randn`,
`A @ v`, in-place `v /= l2_norm(v)` on its own buffer), so the store is
untouched. -/
def power_iteration_st {n : ℕ} (rA : ℕ) (v0 : Fin n → ℝ) (max_iter : ℕ)
    (s0 : Store n) : Except String (ℝ × (Fin n → ℝ)) × Store n :=
  (Single.power_iteration (npRead rA s0) v0 max_iter, s0)

/-- Store-passing rendering of `inverse_iteration(A, max_iter)`: after the
symmetry assert it allocates `A.copy()` and hands that copy to the LU
factorization, so even a mutating `decompose` cannot reach the caller's
buffer; the iteration vectors are callee-local. -/
def inverse_iteration_st {n : ℕ} {Fact : Type}
    (dec : Matrix (Fin n) (Fin n) ℝ → Fact)
    (slv : Fact → (Fin n → ℝ) → (Fin n → ℝ)) (rA : ℕ) (v0 : Fin n → ℝ)
    (max_iter : ℕ) (s0 : Store n) :
    Except String ((ℝ × (Fin n → ℝ)) × List LAOp) × Store n :=
  let A := npRead rA s0
  if LinalgUtils.is_symmetric A then
    let rc := npAlloc A s0
    (Single.inverse_iteration dec slv (npRead rc.1 rc.2) v0 max_iter, rc.2)
  else (.error "[!] Matrix must be symmetric.", s0)

/-- Store-passing rendering of `rayleigh_quotient_iteration(A, mu, max_iter)`:
only reads the caller's matrix; `A - mu*np.eye(N)` creates a fresh array each
iteration and the solver receives that fresh array, so the store is
untouched. -/
def rayleigh_quotient_iteration_st {n : ℕ}
    (slv : Matrix (Fin n) (Fin n) ℝ → (Fin n → ℝ) → (Fin n → ℝ)) (rA : ℕ)
    (mu0 : ℝ) (v0 : Fin n → ℝ) (max_iter : ℕ) (s0 : Store n) :
    Except String (ℝ × (Fin n → ℝ)) × Store n :=
  (Single.rayleigh_quotient_iteration slv (npRead rA s0) mu0 v0 max_iter, s0)

end Single

lemma hessenberg_st_mem {n : ℕ} (rA q : ℕ) (s : Store n)
    (hq : q < s.nextRef) :
    ((Multi.hessenberg_st rA s).2).mem q = s.mem q := by
  have hne : q ≠ (npAlloc (npRead rA s) s).1 := by
    have h1 : (npAlloc (npRead rA s) s).1 = s.nextRef := rfl
    omega
  simp only [Multi.hessenberg_st]
  rw [foldl_write_mem _ _ hne, npAlloc_snd_mem_ne _ _ hne]

lemma hessenberg_st_nextRef {n : ℕ} (rA : ℕ) (s : Store n) :
    ((Multi.hessenberg_st rA s).2).nextRef = s.nextRef + 1 := by
  simp only [Multi.hessenberg_st]
  rw [foldl_write_nextRef, npAlloc_snd_nextRef]

lemma qr_algorithm_st_mem {m : ℕ}
    (dec : Matrix (Fin (m + 1)) (Fin (m + 1)) ℝ →
      Matrix (Fin (m + 1)) (Fin (m + 1)) ℝ × Matrix (Fin (m + 1)) (Fin (m + 1)) ℝ)
    (slv : Matrix (Fin (m + 1)) (Fin (m + 1)) ℝ → (Fin (m + 1) → ℝ) → (Fin (m + 1) → ℝ))
    (starts : ℕ → (Fin (m + 1) → ℝ)) (rA q : ℕ) (hess sort : Bool)
    (s : Store (m + 1)) (hq : q < s.nextRef) :
    ((Multi.qr_algorithm_st dec slv starts rA hess sort s).2).mem q = s.mem q := by
  simp only [Multi.qr_algorithm_st]
  by_cases hsym : LinalgUtils.is_symmetric (npRead rA s) = true
  · rw [if_pos hsym]
    have hb_mem : ((npAlloc (npRead rA s) s).2).mem q = s.mem q :=
      npAlloc_snd_mem_ne _ _ (by omega)
    have hb_next : ((npAlloc (npRead rA s) s).2).nextRef = s.nextRef + 1 :=
      npAlloc_snd_nextRef _ _
    set sb := (npAlloc (npRead rA s) s).2 with hsb
    have h1mem : (if hess then (Multi.hessenberg_st rA sb).2 else sb).mem q
        = s.mem q := by
      cases hess with
      | true =>
          simp only [if_true]
          rw [hessenberg_st_mem rA q sb (by omega), hb_mem]
      | false =>
          rw [if_neg (by simp)]
          exact hb_mem
    have h1next : s.nextRef <
        (if hess then (Multi.hessenberg_st rA sb).2 else sb).nextRef := by
      cases hess with
      | true =>
          simp only [if_true]
          rw [hessenberg_st_nextRef rA sb]
          omega
      | false =>
          rw [if_neg (by simp)]
          omega
    set s1 := (if hess then (Multi.hessenberg_st rA sb).2 else sb) with hs1
    have hrv : q ≠ (npAlloc (0 : Matrix (Fin (m + 1)) (Fin (m + 1)) ℝ) s1).1 := by
      have : (npAlloc (0 : Matrix (Fin (m + 1)) (Fin (m + 1)) ℝ) s1).1
          = s1.nextRef := rfl
      omega
    rw [foldl_write_mem _ _ hrv, npAlloc_snd_mem_ne _ _ hrv, h1mem]
  · rw [if_neg hsym]

/-- Claim C9: none of the eigen routines mutates the caller's matrix: in the
store model, `hessenberg`, `qr_algorithm`, `projected_iteration`,
`power_iteration`, `inverse_iteration` and `rayleigh_quotient_iteration`
leave the buffer at the caller's ref exactly as it was — every write goes to
a buffer the routine allocated itself. -/
theorem eigen_routines_no_caller_mutation :
    (∀ (n : ℕ) (rA : ℕ) (s : Store n), rA < s.nextRef →
      ((Multi.hessenberg_st rA s).2).mem rA = s.mem rA)
    ∧ (∀ (m : ℕ)
        (dec : Matrix (Fin (m + 1)) (Fin (m + 1)) ℝ →
          Matrix (Fin (m + 1)) (Fin (m + 1)) ℝ × Matrix (Fin (m + 1)) (Fin (m + 1)) ℝ)
        (slv : Matrix (Fin (m + 1)) (Fin (m + 1)) ℝ → (Fin (m + 1) → ℝ) → (Fin (m + 1) → ℝ))
        (starts : ℕ → (Fin (m + 1) → ℝ)) (rA : ℕ) (hess sort : Bool)
        (s : Store (m + 1)), rA < s.nextRef →
      ((Multi.qr_algorithm_st dec slv starts rA hess sort s).2).mem rA = s.mem rA)
    ∧ (∀ (N : ℕ) (rA k : ℕ) (starts : ℕ → (Fin N → ℝ)) (max_iter : ℕ)
        (sort : Bool) (s : Store N), rA < s.nextRef →
      ((Multi.projected_iteration_st rA k starts max_iter sort s).2).mem rA = s.mem rA)
    ∧ (∀ (n : ℕ) (rA : ℕ) (v0 : Fin n → ℝ) (max_iter : ℕ) (s : Store n),
        rA < s.nextRef →
      ((Single.power_iteration_st rA v0 max_iter s).2).mem rA = s.mem rA)
    ∧ (∀ (n : ℕ) (Fact : Type) (dec : Matrix (Fin n) (Fin n) ℝ → Fact)
        (slv : Fact → (Fin n → ℝ) → (Fin n → ℝ)) (rA : ℕ) (v0 : Fin n → ℝ)
        (max_iter : ℕ) (s : Store n), rA < s.nextRef →
      ((Single.inverse_iteration_st dec slv rA v0 max_iter s).2).mem rA = s.mem rA)
    ∧ (∀ (n : ℕ) (slv : Matrix (Fin n) (Fin n) ℝ → (Fin n → ℝ) → (Fin n → ℝ))
        (rA : ℕ) (mu0 : ℝ) (v0 : Fin n → ℝ) (max_iter : ℕ) (s : Store n),
        rA < s.nextRef →
      ((Single.rayleigh_quotient_iteration_st slv rA mu0 v0 max_iter s).2).mem rA
        = s.mem rA) := by
  refine ⟨?_, ?_, ?_, ?_, ?_, ?_⟩
  · intro n rA s h
    exact hessenberg_st_mem rA rA s h
  · intro m dec slv starts rA hess sort s h
    exact qr_algorithm_st_mem dec slv starts rA rA hess sort s h
  · intro N rA k starts max_iter sort s _
    rfl
  · intro n rA v0 max_iter s _
    rfl
  · intro n Fact dec slv rA v0 max_iter s h
    simp only [Single.inverse_iteration_st]
    by_cases hsym : LinalgUtils.is_symmetric (npRead rA s) = true
    · rw [if_pos hsym]
      exact npAlloc_snd_mem_ne _ _ (by omega)
    · rw [if_neg hsym]
  · intro n slv rA mu0 v0 max_iter s _
    rfl

/-- Witness for claim C9 with concrete one-element stores and trivial
parameters: each routine leaves the caller's buffer (ref 0) unchanged. -/
theorem eigen_routines_no_caller_mutation_witness :
    ((0 : ℕ) < (1 : ℕ))
    ∧ ((Multi.hessenberg_st 0 (⟨1, fun _ => !![(0 : ℝ)]⟩ : Store 1)).2).mem 0
        = (⟨1, fun _ => !![(0 : ℝ)]⟩ : Store 1).mem 0
    ∧ ((Multi.qr_algorithm_st (fun B => (1, B)) (fun _ v => v) (fun _ => ![1])
          0 true true (⟨1, fun _ => !![(0 : ℝ)]⟩ : Store 1)).2).mem 0
        = (⟨1, fun _ => !![(0 : ℝ)]⟩ : Store 1).mem 0
    ∧ ((Multi.projected_iteration_st 0 1 (fun _ => ![1]) 1 true
          (⟨1, fun _ => !![(0 : ℝ)]⟩ : Store 1)).2).mem 0
        = (⟨1, fun _ => !![(0 : ℝ)]⟩ : Store 1).mem 0
    ∧ ((Single.power_iteration_st 0 ![1] 1
          (⟨1, fun _ => !![(0 : ℝ)]⟩ : Store 1)).2).mem 0
        = (⟨1, fun _ => !![(0 : ℝ)]⟩ : Store 1).mem 0
    ∧ ((Single.inverse_iteration_st (fun _ => ()) (fun _ v => v) 0 ![1] 1
          (⟨1, fun _ => !![(0 : ℝ)]⟩ : Store 1)).2).mem 0
        = (⟨1, fun _ => !![(0 : ℝ)]⟩ : Store 1).mem 0
    ∧ ((Single.rayleigh_quotient_iteration_st (fun _ v => v) 0 0 ![1] 1
          (⟨1, fun _ => !![(0 : ℝ)]⟩ : Store 1)).2).mem 0
        = (⟨1, fun _ => !![(0 : ℝ)]⟩ : Store 1).mem 0 :=
  ⟨by norm_num,
   eigen_routines_no_caller_mutation.1 1 0 _ (by norm_num),
   eigen_routines_no_caller_mutation.2.1 0 (fun B => (1, B)) (fun _ v => v)
     (fun _ => ![1]) 0 true true _ (by norm_num),
   eigen_routines_no_caller_mutation.2.2.1 1 0 1 (fun _ => ![1]) 1 true _
     (by norm_num),
   eigen_routines_no_caller_mutation.2.2.2.1 1 0 ![1] 1 _ (by norm_num),
   eigen_routines_no_caller_mutation.2.2.2.2.1 1 Unit (fun _ => ())
     (fun _ v => v) 0 ![1] 1 _ (by norm_num),
   eigen_routines_no_caller_mutation.2.2.2.2.2 1 (fun _ v => v) 0 0 ![1] 1 _
     (by norm_num)⟩

end LearnLinalg
